import Mathlib

/-!
Verification of the exam-paper similarity pipeline
(`data_cleaner.py`, `similarity_calculator.py`, `paper_vectorizer.py`,
`vectorizer.py`, `utils.py`).

Texts are modelled as `List Char` (Python `str`).  Python whitespace is
modelled by its ASCII part, real arithmetic (numpy floats) by `ℝ`.
External collaborators (bleach/BeautifulSoup markup sanitization,
`extract_core_content`'s soup-based extraction, `hashlib.sha256`, the
embedding model) are taken as function parameters, exactly as the spec
treats them (capabilities); everything else is translated from the source.
-/

namespace NlpExam

/-- ASCII part of Python's whitespace class (`str.strip` / `str.split` /
regex `\s`): space, tab, newline, carriage return, vertical tab, form feed. -/
def isWs (c : Char) : Bool :=
  c = ' ' || c = '\t' || c = '\n' || c = '\r' || c = '\x0b' || c = '\x0c'

/-- Control characters removed by `clean_html`'s regex `[\x00-\x1f\x7f-\x9f]`. -/
def isCtrl (c : Char) : Bool :=
  c.toNat ≤ 0x1f || (0x7f ≤ c.toNat && c.toNat ≤ 0x9f)

/-- The non-whitespace characters of a text, in order. -/
def nonWs (l : List Char) : List Char := l.filter (fun c => !(isWs c))

/-- Leading-whitespace removal (`str.lstrip`). -/
def stripLeft (l : List Char) : List Char := l.dropWhile isWs

/-- Trailing-whitespace removal (`str.rstrip`). -/
def stripRight (l : List Char) : List Char := (l.reverse.dropWhile isWs).reverse

/-- Python `str.strip()`. -/
def stripChars (l : List Char) : List Char := stripRight (stripLeft l)

/-- Python `text.split('\n')`. -/
def splitNl : List Char → List (List Char)
  | [] => [[]]
  | c :: rest =>
    if c = '\n' then [] :: splitNl rest
    else
      match splitNl rest with
      | [] => [[c]]
      | p :: ps => (c :: p) :: ps

/-- Worker for `splitWs`; `acc` is the whitespace-free run being accumulated. -/
def splitWsGo : List Char → List Char → List (List Char)
  | acc, [] => if acc.isEmpty then [] else [acc]
  | acc, c :: rest =>
    if isWs c then
      if acc.isEmpty then splitWsGo [] rest else acc :: splitWsGo [] rest
    else splitWsGo (acc ++ [c]) rest

/-- Python `str.split()` (split on whitespace runs, dropping empty pieces). -/
def splitWs (l : List Char) : List (List Char) := splitWsGo [] l

/-- Python `" ".join(words)`. -/
def joinSp : List (List Char) → List Char
  | [] => []
  | [w] => w
  | w :: ws => w ++ ' ' :: joinSp ws

/-- The sentence-terminal punctuation set of `segment_text`:
`{'。', '？', '！', '；'}`. -/
def puncts : List Char := ['。', '？', '！', '；']

/-- The punctuation-cut scan of `segment_text` (`data_cleaner.py` lines
53-61): accumulate characters, cut after a terminal punctuation mark once
the accumulated length reaches `0.3 * max_length`, strip each piece, and
flush the (pre-strip nonempty) remainder.  The float threshold
`len >= max_length * 0.3` is modelled exactly as the rational comparison
`3 * maxLen ≤ 10 * len`. -/
def punctSplit (maxLen : Nat) : List Char → List Char → List (List Char)
  | cur, [] => if cur.isEmpty then [] else [stripChars cur]
  | cur, c :: rest =>
    if puncts.contains c ∧ 3 * maxLen ≤ 10 * (cur ++ [c]).length then
      stripChars (cur ++ [c]) :: punctSplit maxLen [] rest
    else punctSplit maxLen (cur ++ [c]) rest

/-- The greedy word packer of `segment_text` (`data_cleaner.py` lines
66-77): flush the current fragment whenever `current_length + len(word) + 1`
would exceed `max_length` and the fragment is nonempty; always flush the
final fragment. -/
def packGo (maxLen : Nat) : List (List Char) → Nat → List (List Char) → List (List Char)
  | frag, _, [] => if frag.isEmpty then [] else [joinSp frag]
  | frag, clen, w :: ws =>
    if maxLen < clen + w.length + 1 ∧ ¬frag.isEmpty then
      joinSp frag :: packGo maxLen [w] (w.length + 1) ws
    else packGo maxLen (frag ++ [w]) (clen + w.length + 1) ws

/-- Model of `data_cleaner.segment_text`: split into stripped nonempty paragraphs on
line breaks; paragraphs within `max_length` pass through; longer ones are
cut at sentence punctuation, and any resulting piece still exceeding
`max_length` is greedily packed from its whitespace-delimited words. -/
def segmentText (text : List Char) (maxLen : Nat) : List (List Char) :=
  (((splitNl text).map stripChars).filter (fun p => !p.isEmpty)).flatMap fun para =>
    if para.length ≤ maxLen then [para]
    else
      (punctSplit maxLen [] para).flatMap fun seg =>
        if seg.length ≤ maxLen then [seg]
        else packGo maxLen [] 0 (splitWs seg)

/-! ### `clean_html` (`data_cleaner.py` lines 17-43)

The math-protection machinery (regex `(\$(.*?)\$|\\\[(.*?)\\\])`, indexed
`__MATH_k__` placeholders, restore regex `__MATH_(\d+)__`) is modelled
concretely by character-level scanners equivalent to the Python regexes
(leftmost scan, non-greedy span search, `.` not matching a newline, greedy
digit run).  Scanners whose recursion is not structural take an explicit
fuel argument instantiated with the input length, which always suffices.
The external `bleach.clean` + `BeautifulSoup` attribute-stripping stage is
a function parameter `bleachSoup`; the whitespace collapse `\s+ -> ' '`,
control-character removal and final `strip()` are modelled concretely. -/

/-- Decimal digit character of `d` (used for `d < 10`; the code path of
`f'__MATH_{k}__'` prints `k` in decimal). -/
def digitOf : Nat → Char
  | 0 => '0' | 1 => '1' | 2 => '2' | 3 => '3' | 4 => '4'
  | 5 => '5' | 6 => '6' | 7 => '7' | 8 => '8' | 9 => '9'
  | _ => '0'

/-- Fuelled decimal printer for `Nat` (fuel `n + 1` always suffices). -/
def digitsFuel : Nat → Nat → List Char
  | 0, _ => []
  | fuel + 1, n =>
    if n < 10 then [digitOf n] else digitsFuel fuel (n / 10) ++ [digitOf (n % 10)]

/-- Decimal representation of `n`, as Python's `str(n)` / f-string prints it. -/
def natToDigits (n : Nat) : List Char := digitsFuel (n + 1) n

/-- Numeric value of a digit character. -/
def digitVal (c : Char) : Nat := c.toNat - '0'.toNat

/-- Decimal parse of a digit list, as Python's `int(...)` reads the capture
of `__MATH_(\d+)__`. -/
def parseNum (ds : List Char) : Nat := ds.foldl (fun a c => 10 * a + digitVal c) 0

/-- The placeholder text `__MATH_k__` inserted by `save_math`. -/
def phMarker (k : Nat) : List Char :=
  '_' :: '_' :: 'M' :: 'A' :: 'T' :: 'H' :: '_' :: (natToDigits k ++ ['_', '_'])

/-- A piece of the protected text: either one literal character of the
input, or the placeholder for the `k`-th captured math block. -/
inductive HPiece where
  | lit (c : Char)
  | ph (k : Nat)
deriving DecidableEq

/-- The protected text denoted by a piece list. -/
def renderPieces : List HPiece → List Char
  | [] => []
  | .lit c :: ps => c :: renderPieces ps
  | .ph k :: ps => phMarker k ++ renderPieces ps

/-- The placeholder indices occurring in a piece list, in order. -/
def phList (ps : List HPiece) : List Nat :=
  ps.filterMap fun p => match p with | .ph k => some k | .lit _ => none

/-- Non-greedy search for the closing `$` of a `$...$` span: `(.*?)` does
not cross a newline.  Returns the span interior and the text after the
closing `$`. -/
def takeUntilDollar : List Char → Option (List Char × List Char)
  | [] => none
  | c :: rest =>
    if c = '$' then some ([], rest)
    else if c = '\n' then none
    else (takeUntilDollar rest).map fun p => (c :: p.1, p.2)

/-- Non-greedy search for the closing `\]` of a `\[...\]` span. -/
def takeUntilBracket : List Char → Option (List Char × List Char)
  | [] => none
  | [_] => none
  | c :: d :: rest =>
    if c = '\\' ∧ d = ']' then some ([], rest)
    else if c = '\n' then none
    else (takeUntilBracket (d :: rest)).map fun p => (c :: p.1, p.2)

/-- Fuelled scanner for `math_pattern.sub(save_math, raw_html)`: leftmost
match of `\$(.*?)\$` or `\\\[(.*?)\\\]`, advancing one character when
neither alternative matches.  Returns the pieces of the protected text and
the captured math blocks (delimiters included), in capture order; `n` is
the index of the next block. -/
def protectFuel : Nat → List Char → Nat → List HPiece × List (List Char)
  | 0, _, _ => ([], [])
  | _ + 1, [], _ => ([], [])
  | fuel + 1, c :: rest, n =>
    if c = '$' then
      match takeUntilDollar rest with
      | some (inside, after) =>
        let r := protectFuel fuel after (n + 1)
        (.ph n :: r.1, ('$' :: inside ++ ['$']) :: r.2)
      | none =>
        let r := protectFuel fuel rest n
        (.lit '$' :: r.1, r.2)
    else if c = '\\' ∧ rest.head? = some '[' then
      match takeUntilBracket rest.tail with
      | some (inside, after) =>
        let r := protectFuel fuel after (n + 1)
        (.ph n :: r.1, ('\\' :: '[' :: inside ++ ['\\', ']']) :: r.2)
      | none =>
        let r := protectFuel fuel rest n
        (.lit '\\' :: r.1, r.2)
    else
      let r := protectFuel fuel rest n
      (.lit c :: r.1, r.2)

/-- Math-span protection: pieces of the protected text and captured blocks. -/
def protectHtml (raw : List Char) : List HPiece × List (List Char) :=
  protectFuel raw.length raw 0

/-- Anchored parse of a placeholder `__MATH_(\d+)__` at the head of the
text: literal prefix, then a greedy nonempty digit run, then `__`.  Returns
the parsed index and the remaining text. -/
def parsePH (l : List Char) : Option (Nat × List Char) :=
  if l.take 7 = ['_', '_', 'M', 'A', 'T', 'H', '_'] then
    let rest := l.drop 7
    let ds := rest.takeWhile Char.isDigit
    if ds.isEmpty then none
    else if (rest.dropWhile Char.isDigit).take 2 = ['_', '_'] then
      some (parseNum ds, (rest.dropWhile Char.isDigit).drop 2)
    else none
  else none

/-- Fuelled scanner for `re.sub(r'__MATH_(\d+)__', restore_math, ...)`:
each placeholder is replaced by the block of its index, or by the empty
string when the index is outside the block list (`restore_math`'s
`idx < len(math_blocks)` guard); replacements are not rescanned. -/
def restoreFuel (blocks : List (List Char)) : Nat → List Char → List Char
  | 0, _ => []
  | _ + 1, [] => []
  | fuel + 1, c :: rest =>
    match parsePH (c :: rest) with
    | some (k, after) => blocks.getD k [] ++ restoreFuel blocks fuel after
    | none => c :: restoreFuel blocks fuel rest

/-- Placeholder restoration (`re.sub` with `restore_math`). -/
def restoreMath (blocks : List (List Char)) (l : List Char) : List Char :=
  restoreFuel blocks l.length l

/-- A piece is collision-free when it is not a literal underscore:
literal underscores are the only raw characters that can combine with
inserted placeholders into spurious `__MATH_(\d+)__` matches. -/
def pieceOK : HPiece → Bool
  | .lit c => c != '_'
  | .ph _ => true

/-- Leading whitespace-literal removal on pieces (the piece-level image of
`dropWhile isWs` on the rendered text). -/
def dropLitWs : List HPiece → List HPiece
  | [] => []
  | .lit c :: ps => if isWs c then dropLitWs ps else .lit c :: ps
  | .ph k :: ps => .ph k :: ps

/-- The pieces surviving control-character removal. -/
def keepPiece : HPiece → Bool
  | .lit c => !isCtrl c
  | .ph _ => true

/-- Model of `re.sub(r'\s+', ' ', text)`: collapse each whitespace run to one space. -/
def collapseWs : List Char → List Char
  | [] => []
  | [c] => if isWs c then [' '] else [c]
  | c :: d :: rest =>
    if isWs c then
      if isWs d then collapseWs (d :: rest) else ' ' :: d :: collapseWs rest
    else c :: collapseWs (d :: rest)

/-- Model of `re.sub(r'[\x00-\x1f\x7f-\x9f]', '', text)`. -/
def removeCtrl (l : List Char) : List Char := l.filter fun c => !(isCtrl c)

/-- Model of `data_cleaner.clean_html`: protect math spans behind placeholders, run
the (external) bleach + BeautifulSoup sanitizer, collapse whitespace,
remove control characters, strip, and restore the math spans. -/
def cleanHtml (bleachSoup : List Char → List Char) (raw : List Char) : List Char :=
  let p := protectHtml raw
  restoreMath p.2 (stripChars (removeCtrl (collapseWs (bleachSoup (renderPieces p.1)))))

/-! ### `clean_paper_data` and fingerprints (`data_cleaner.py` lines 81-125) -/

/-- One record of the raw exam JSON; absent keys are `none`
(`question.get(...)` defaults). -/
structure RawQuestion where
  id : Option (List Char)
  qtype : Option (List Char)
  richTextContent : Option (List Char)

/-- One cleaned question as written by `clean_paper_data`. -/
structure CleanedQuestion where
  id : List Char
  qtype : List Char
  text : List Char
  segments : List (List Char)
  fingerprint : List Char
deriving DecidableEq

/-- Model of `data_cleaner.get_content_fingerprint`: digest of
`paper_id + "::" + core_text.strip()` where `core_text` is the (external,
soup-based) `utils.extract_core_content` of the question text and `sha256`
stands for `hashlib.sha256(...).hexdigest()`. -/
def contentFingerprint (coreExtract sha256 : List Char → List Char)
    (paperId text : List Char) : List Char :=
  sha256 (paperId ++ [':', ':'] ++ stripChars (coreExtract text))

/-- The per-question work of `clean_paper_data`'s loop body: clean the rich
text, segment it, and attach the fingerprint (always computed). -/
def processQuestion (bleachSoup coreExtract sha256 : List Char → List Char)
    (paperId : List Char) (q : RawQuestion) : CleanedQuestion :=
  let cleaned := cleanHtml bleachSoup (q.richTextContent.getD [])
  { id := q.id.getD []
    qtype := q.qtype.getD "未知".toList
    text := cleaned
    segments := segmentText cleaned 500
    fingerprint := contentFingerprint coreExtract sha256 paperId cleaned }

/-- The main loop of `clean_paper_data`: `seen` is the
`seen_fingerprints` set (fingerprints of kept questions); a question is
dropped exactly when deduplication is on and its fingerprint was seen. -/
def cleanGo (bleachSoup coreExtract sha256 : List Char → List Char)
    (paperId : List Char) (dedup : Bool) :
    List (List Char) → List RawQuestion → List CleanedQuestion
  | _, [] => []
  | seen, q :: qs =>
    let cq := processQuestion bleachSoup coreExtract sha256 paperId q
    if dedup ∧ cq.fingerprint ∈ seen then
      cleanGo bleachSoup coreExtract sha256 paperId dedup seen qs
    else cq :: cleanGo bleachSoup coreExtract sha256 paperId dedup (cq.fingerprint :: seen) qs

/-- Model of `data_cleaner.clean_paper_data` (the cleaning itself; file reading and writing is the
caller's concern): the cleaned question list. -/
def cleanPaperData (bleachSoup coreExtract sha256 : List Char → List Char)
    (questions : List RawQuestion) (paperId : List Char) (dedup : Bool) :
    List CleanedQuestion :=
  cleanGo bleachSoup coreExtract sha256 paperId dedup [] questions

/-- Modelled from the spec: "drop any question whose fingerprint already
appeared, keeping the first occurrence in input order" — keep a question
exactly when no earlier question (kept or not) carries its fingerprint.
Used to state the deduplication claim against `cleanPaperData`. -/
def dropLaterDupsGo : List (List Char) → List CleanedQuestion → List CleanedQuestion
  | _, [] => []
  | prev, q :: qs =>
    if q.fingerprint ∈ prev then dropLaterDupsGo (q.fingerprint :: prev) qs
    else q :: dropLaterDupsGo (q.fingerprint :: prev) qs

/-- First-occurrence filter over all earlier fingerprints. -/
def dropLaterDups (l : List CleanedQuestion) : List CleanedQuestion :=
  dropLaterDupsGo [] l

/-! ### Similarity engine (`similarity_calculator.py`)

Vectors are `List ℝ`; numpy/sklearn array arithmetic is modelled entry by
entry.  `sklearn.metrics.pairwise.cosine_similarity(A, B)` L2-normalizes
every row — replacing a zero norm by 1, its documented zero-vector guard —
and multiplies: entry `(i, j)` is the dot product of the normalized rows. -/

/-- Dot product of two rows (`np.dot` after sklearn's normalization). -/
def dotList (a b : List ℝ) : ℝ := (List.zipWith (· * ·) a b).sum

/-- Sum of squared entries (`np.sum(v ** 2)`). -/
def sqSum (v : List ℝ) : ℝ := (v.map fun x => x ^ 2).sum

/-- L2 norm of a row. -/
noncomputable def normL2 (v : List ℝ) : ℝ := Real.sqrt (sqSum v)

/-- sklearn's row normalization (`sklearn.preprocessing.normalize`): zero
norms are replaced by 1 before dividing, so a zero row stays a zero row. -/
noncomputable def sklearnNormalizeRow (v : List ℝ) : List ℝ :=
  v.map fun x => x / (if normL2 v = 0 then 1 else normL2 v)

/-- Entry `(i, j)` of `cosine_similarity(matrix_a, matrix_b)`
(`similarity_calculator.py` line 85). -/
noncomputable def cosineSimEntry (A B : List (List ℝ)) (i j : Nat) : ℝ :=
  dotList (sklearnNormalizeRow (A.getD i [])) (sklearnNormalizeRow (B.getD j []))

/-- Model of `vectorizer.euclidean_distance`: `np.sqrt(np.sum((v1 - v2) ** 2))`. -/
noncomputable def euclideanDistance (v1 v2 : List ℝ) : ℝ :=
  Real.sqrt (sqSum (List.zipWith (· - ·) v1 v2))

/-- Entry `(i, j)` of the vectorized Euclidean-distance computation
(`similarity_calculator.py` lines 89-93): difference, square, sum, root. -/
noncomputable def eucDistEntry (A B : List (List ℝ)) (i j : Nat) : ℝ :=
  Real.sqrt (List.zipWith (fun x y => (x - y) ^ 2) (A.getD i []) (B.getD j [])).sum

/-- Entry `(i, j)` of `euc_sim_matrix = 1 / (1 + euc_dist_matrix)`. -/
noncomputable def eucSimEntry (A B : List (List ℝ)) (i j : Nat) : ℝ :=
  1 / (1 + eucDistEntry A B i j)

/-- Entry `(i, j)` of the fused matrix
`fusion_weight * cos_sim_matrix + (1 - fusion_weight) * euc_sim_matrix`. -/
noncomputable def fusedEntry (A B : List (List ℝ)) (w : ℝ) (i j : Nat) : ℝ :=
  w * cosineSimEntry A B i j + (1 - w) * eucSimEntry A B i j

/-- Model of `similarity_calculator.fused_similarity`: the scalar path — reshape to
1×D matrices, take `cosine_similarity(...)[0, 0]`, convert
`euclidean_distance` to a similarity, and blend with weight `w_cos`. -/
noncomputable def fusedSimilarity (vA vB : List ℝ) (wCos : ℝ) : ℝ :=
  let cosSim := cosineSimEntry [vA] [vB] 0 0
  let eucDist := euclideanDistance vA vB
  let eucSim := 1 / (1 + eucDist)
  wCos * cosSim + (1 - wCos) * eucSim

/-- The id/type/text triple kept in `info_a` / `info_b`. -/
structure QInfo where
  id : List Char
  qtype : List Char
  text : List Char
deriving DecidableEq

/-- The dummy `QInfo` used for out-of-range list reads (never hit when the
indices come from the enumeration loops). -/
def emptyQInfo : QInfo := ⟨[], [], []⟩

/-- A question of a vectorized paper; `vector` is `none` when the JSON has
no usable vector (`"vector" in q and q["vector"] is not None`). -/
structure VQuestion where
  id : List Char
  qtype : List Char
  text : List Char
  vector : Option (List ℝ)

/-- One emitted similar pair (`{"paper_a": ..., "paper_b": ..., "similarity": ...}`). -/
structure SimPair where
  paper_a : QInfo
  paper_b : QInfo
  similarity : ℝ

/-- The vector/info collection loop of `calculate_similarity` (lines
46-64): keep exactly the questions carrying a vector. -/
def usableQuestions (qs : List VQuestion) : List (List ℝ × QInfo) :=
  qs.filterMap fun q => q.vector.map fun v => (v, ⟨q.id, q.qtype, q.text⟩)

/-- The pair-emission double loop of `calculate_similarity` (lines
101-112), in `i`-then-`j` enumeration order: skip a pair when
`type_sensitive` and the types differ, emit it when its fused score
reaches the threshold (inclusive `>=`). -/
noncomputable def emittedPairs (A B : List (List ℝ)) (infoA infoB : List QInfo)
    (w threshold : ℝ) (typeSensitive : Bool) : List SimPair :=
  (List.range infoA.length).flatMap fun i =>
    (List.range infoB.length).flatMap fun j =>
      if typeSensitive = true ∧ (infoA.getD i emptyQInfo).qtype ≠ (infoB.getD j emptyQInfo).qtype then []
      else if threshold ≤ fusedEntry A B w i j then
        [⟨infoA.getD i emptyQInfo, infoB.getD j emptyQInfo, fusedEntry A B w i j⟩]
      else []

/-- Stable descending insertion: walk past strictly larger scores, so an
earlier element stays in front of later elements with an equal score. -/
noncomputable def insertDesc (p : SimPair) : List SimPair → List SimPair
  | [] => [p]
  | q :: qs => if p.similarity < q.similarity then q :: insertDesc p qs else p :: q :: qs

/-- Model of `similar_pairs.sort(key=lambda x: x["similarity"], reverse=True)`:
Python's sort is stable also with `reverse=True`, and every stable
descending sort computes this insertion sort. -/
noncomputable def sortPairs (l : List SimPair) : List SimPair := l.foldr insertDesc []

/-- The comparison-result dictionary.  `deduplicate` is an `Option`
because the early zero-pairs return (lines 67-78) has no `"deduplicate"`
key while the full return (lines 116-128) does. -/
structure CompareResult where
  paper_a : List Char
  paper_b : List Char
  method : List Char
  threshold : ℝ
  type_sensitive : Bool
  fusion_weight : ℝ
  total_questions_a : Nat
  total_questions_b : Nat
  total_pairs : Nat
  deduplicate : Option Bool
  similar_pairs : List SimPair

/-- Model of `similarity_calculator.calculate_similarity` on already-parsed papers
(file reading is I/O; the file names are echoed into the result). -/
noncomputable def calculateSimilarity (paperAFile paperBFile : List Char)
    (paperA paperB : List VQuestion) (threshold : ℝ) (typeSensitive : Bool)
    (fusionWeight : ℝ) (dedup : Bool) : CompareResult :=
  let ua := usableQuestions paperA
  let ub := usableQuestions paperB
  let vectorsA := ua.map Prod.fst
  let vectorsB := ub.map Prod.fst
  let infoA := ua.map Prod.snd
  let infoB := ub.map Prod.snd
  if vectorsA.isEmpty || vectorsB.isEmpty then
    { paper_a := paperAFile, paper_b := paperBFile, method := "fused".toList
      threshold := threshold, type_sensitive := typeSensitive
      fusion_weight := fusionWeight
      total_questions_a := vectorsA.length, total_questions_b := vectorsB.length
      total_pairs := 0, deduplicate := none, similar_pairs := [] }
  else
    let pairs := sortPairs (emittedPairs vectorsA vectorsB infoA infoB fusionWeight threshold typeSensitive)
    { paper_a := paperAFile, paper_b := paperBFile, method := "fused".toList
      threshold := threshold, type_sensitive := typeSensitive
      fusion_weight := fusionWeight
      total_questions_a := vectorsA.length, total_questions_b := vectorsB.length
      total_pairs := pairs.length, deduplicate := some dedup
      similar_pairs := pairs }

/-! ### Vector aggregation (`paper_vectorizer.vectorize_paper` lines 35-42) -/

/-- Componentwise sum of a vector list (`np.sum` over axis 0; vectors of a
run share one dimension, so `zipWith` never truncates). -/
def vsum {α : Type} [Add α] : List (List α) → List α
  | [] => []
  | [v] => v
  | v :: vs => List.zipWith (· + ·) v (vsum vs)

/-- Model of `np.mean(embeddings, axis=0)`: componentwise sum divided by the count. -/
def meanVec {α : Type} [DivisionRing α] (vs : List (List α)) : List α :=
  (vsum vs).map fun x => x / (vs.length : α)

/-- The segment-aggregation branch of `vectorize_paper`: embed every
segment through the (external, per-text deterministic) provider, discard
failures, and average the successes; `none` when every segment fails. -/
def aggregateSegments {α : Type} [DivisionRing α]
    (embed : List Char → Option (List α)) (segments : List (List Char)) :
    Option (List α) :=
  let embs := segments.filterMap embed
  if embs.isEmpty then none else some (meanVec embs)

/-! ## Theorems -/

/-! ### Segmentation (claim C5) -/

theorem nonWs_append (a b : List Char) : nonWs (a ++ b) = nonWs a ++ nonWs b :=
  List.filter_append a b

theorem nonWs_cons (c : Char) (l : List Char) :
    nonWs (c :: l) = (if isWs c then [] else [c]) ++ nonWs l := by
  by_cases h : isWs c <;> simp [nonWs, List.filter_cons, h]

theorem nonWs_dropWhile_isWs (l : List Char) : nonWs (l.dropWhile isWs) = nonWs l := by
  induction l with
  | nil => rfl
  | cons c rest ih =>
    by_cases h : isWs c
    · rw [List.dropWhile_cons_of_pos h, ih, nonWs_cons, if_pos h, List.nil_append]
    · rw [List.dropWhile_cons_of_neg h]

theorem nonWs_stripLeft (l : List Char) : nonWs (stripLeft l) = nonWs l :=
  nonWs_dropWhile_isWs l

theorem nonWs_stripRight (l : List Char) : nonWs (stripRight l) = nonWs l := by
  have h1 : nonWs (l.reverse.dropWhile isWs) = nonWs l.reverse := nonWs_dropWhile_isWs _
  unfold stripRight nonWs at *
  rw [List.filter_reverse, h1, List.filter_reverse, List.reverse_reverse]

theorem nonWs_stripChars (l : List Char) : nonWs (stripChars l) = nonWs l := by
  unfold stripChars
  rw [nonWs_stripRight, nonWs_stripLeft]

theorem splitNl_ne_nil (t : List Char) : splitNl t ≠ [] := by
  cases t with
  | nil => simp [splitNl]
  | cons c rest =>
    by_cases h : c = '\n'
    · simp [splitNl, h]
    · simp only [splitNl, if_neg h]
      cases splitNl rest <;> simp

theorem nonWs_flatten_splitNl (t : List Char) :
    ((splitNl t).map nonWs).flatten = nonWs t := by
  induction t with
  | nil => rfl
  | cons c rest ih =>
    by_cases h : c = '\n'
    · subst h
      simp only [splitNl, if_pos rfl, List.map_cons, List.flatten_cons]
      rw [nonWs_cons]
      rw [if_pos (by simp [isWs])]
      simpa [nonWs] using ih
    · simp only [splitNl, if_neg h]
      cases hs : splitNl rest with
      | nil => exact absurd hs (splitNl_ne_nil rest)
      | cons p ps =>
        rw [hs] at ih
        simp only [List.map_cons, List.flatten_cons] at ih ⊢
        rw [nonWs_cons c rest, nonWs_cons c p, List.append_assoc, ih]

theorem nonWs_flatten_filter_nonempty (L : List (List Char)) :
    ((L.filter fun p => !p.isEmpty).map nonWs).flatten = (L.map nonWs).flatten := by
  induction L with
  | nil => rfl
  | cons p ps ih =>
    by_cases h : p.isEmpty
    · have : p = [] := by cases p <;> simp_all
      subst this
      simpa [List.filter_cons, nonWs] using ih
    · simp [List.filter_cons, h, ih]

theorem punctSplit_nonWs (maxLen : Nat) :
    ∀ (rest cur : List Char),
      ((punctSplit maxLen cur rest).map nonWs).flatten = nonWs (cur ++ rest) := by
  intro rest
  induction rest with
  | nil =>
    intro cur
    by_cases h : cur.isEmpty
    · have : cur = [] := by cases cur <;> simp_all
      subst this; simp [punctSplit, nonWs]
    · simp [punctSplit, h, nonWs_stripChars]
  | cons c rest ih =>
    intro cur
    by_cases h : puncts.contains c ∧ 3 * maxLen ≤ 10 * (cur ++ [c]).length
    · have h1 := ih []
      rw [List.nil_append] at h1
      simp only [punctSplit, if_pos h, List.map_cons, List.flatten_cons,
        nonWs_stripChars, h1]
      rw [← nonWs_append]
      congr 1
      simp
    · have heq : punctSplit maxLen cur (c :: rest) = punctSplit maxLen (cur ++ [c]) rest := by
        simp only [punctSplit]
        rw [if_neg h]
      rw [heq, ih (cur ++ [c])]
      congr 1
      simp

theorem splitWsGo_flatten : ∀ (l acc : List Char),
    (splitWsGo acc l).flatten = acc ++ nonWs l := by
  intro l
  induction l with
  | nil =>
    intro acc
    by_cases h : acc.isEmpty
    · have : acc = [] := by cases acc <;> simp_all
      subst this; simp [splitWsGo, nonWs]
    · simp [splitWsGo, h, nonWs]
  | cons c rest ih =>
    intro acc
    by_cases h : isWs c
    · by_cases ha : acc.isEmpty
      · have : acc = [] := by cases acc <;> simp_all
        subst this
        simp [splitWsGo, h, ha, ih, nonWs_cons]
      · simp [splitWsGo, h, ha, ih, nonWs_cons]
    · rw [Bool.not_eq_true] at h
      simp [splitWsGo, h, ih, nonWs_cons]

theorem splitWs_flatten (l : List Char) : (splitWs l).flatten = nonWs l := by
  simpa using splitWsGo_flatten l []

/-- Every piece `str.split()` returns is free of whitespace characters. -/
theorem splitWsGo_wsFree : ∀ (l acc : List Char),
    (∀ c ∈ acc, isWs c = false) →
    ∀ w ∈ splitWsGo acc l, ∀ c ∈ w, isWs c = false := by
  intro l
  induction l with
  | nil =>
    intro acc hacc w hw
    by_cases h : acc.isEmpty
    · simp [splitWsGo, h] at hw
    · simp only [splitWsGo, if_neg h, List.mem_singleton] at hw
      subst hw; exact hacc
  | cons c rest ih =>
    intro acc hacc w hw
    by_cases h : isWs c
    · by_cases ha : acc.isEmpty
      · rw [show splitWsGo acc (c :: rest) = splitWsGo [] rest by
          simp [splitWsGo, h, ha]] at hw
        exact ih [] (by simp) w hw
      · rw [show splitWsGo acc (c :: rest) = acc :: splitWsGo [] rest by
          simp [splitWsGo, h, ha]] at hw
        rcases List.mem_cons.1 hw with rfl | hw
        · exact hacc
        · exact ih [] (by simp) w hw
    · rw [Bool.not_eq_true] at h
      rw [show splitWsGo acc (c :: rest) = splitWsGo (acc ++ [c]) rest by
        simp [splitWsGo, h]] at hw
      refine ih (acc ++ [c]) ?_ w hw
      intro d hd
      rcases List.mem_append.1 hd with hd | hd
      · exact hacc d hd
      · simp at hd; subst hd; exact h

theorem nonWs_joinSp : ∀ (ws : List (List Char)),
    (∀ w ∈ ws, ∀ c ∈ w, isWs c = false) → nonWs (joinSp ws) = ws.flatten := by
  intro ws
  induction ws with
  | nil => intro _; rfl
  | cons w rest ih =>
    intro h
    have hw : nonWs w = w := by
      refine List.filter_eq_self.2 fun c hc => ?_
      simp [h w (by simp) c hc]
    cases rest with
    | nil => simpa [joinSp] using hw
    | cons w2 rest2 =>
      show nonWs (w ++ ' ' :: joinSp (w2 :: rest2)) = _
      rw [nonWs_append, nonWs_cons]
      rw [if_pos (by simp [isWs]), hw, ih (fun x hx => h x (by simp [hx]))]
      simp

theorem packGo_nonWs (maxLen : Nat) : ∀ (ws frag : List (List Char)) (clen : Nat),
    (∀ w ∈ frag, ∀ c ∈ w, isWs c = false) →
    (∀ w ∈ ws, ∀ c ∈ w, isWs c = false) →
    ((packGo maxLen frag clen ws).map nonWs).flatten = frag.flatten ++ ws.flatten := by
  intro ws
  induction ws with
  | nil =>
    intro frag clen hfrag _
    by_cases h : frag.isEmpty
    · have : frag = [] := by cases frag <;> simp_all
      subst this; simp [packGo]
    · simp [packGo, h, nonWs_joinSp frag hfrag]
  | cons hd tl ih =>
    intro frag clen hfrag hws
    have hsing : ∀ x ∈ [hd], ∀ c ∈ x, isWs c = false := by
      intro x hx
      simp only [List.mem_singleton] at hx; subst hx
      exact hws x (by simp)
    have htail : ∀ x ∈ tl, ∀ c ∈ x, isWs c = false :=
      fun x hx => hws x (by simp [hx])
    by_cases h : maxLen < clen + hd.length + 1 ∧ ¬frag.isEmpty
    · simp only [packGo, if_pos h, List.map_cons, List.flatten_cons]
      rw [nonWs_joinSp frag hfrag, ih [hd] (hd.length + 1) hsing htail]
      simp
    · simp only [packGo, if_neg h]
      rw [ih (frag ++ [hd]) (clen + hd.length + 1) ?_ htail]
      · simp
      · intro x hx
        rcases List.mem_append.1 hx with hx | hx
        · exact hfrag x hx
        · simp only [List.mem_singleton] at hx; subst hx
          exact hws x (by simp)

theorem joinSp_length : ∀ (frag : List (List Char)), frag ≠ [] →
    (joinSp frag).length + 1 = (frag.map fun w => w.length + 1).sum := by
  intro frag
  induction frag with
  | nil => intro h; exact absurd rfl h
  | cons w rest ih =>
    intro _
    cases rest with
    | nil => simp [joinSp]
    | cons w2 rest2 =>
      show (w ++ ' ' :: joinSp (w2 :: rest2)).length + 1 = _
      have := ih (by simp)
      simp only [List.map_cons, List.sum_cons] at this ⊢
      simp only [List.length_append, List.length_cons]
      omega

theorem packGo_length (maxLen : Nat) : ∀ (ws frag : List (List Char)) (clen : Nat),
    (∀ w ∈ frag, ∀ c ∈ w, isWs c = false) →
    (∀ w ∈ ws, ∀ c ∈ w, isWs c = false) →
    clen = (frag.map fun w => w.length + 1).sum →
    (2 ≤ frag.length → clen ≤ maxLen) →
    ∀ s ∈ packGo maxLen frag clen ws,
      s.length ≤ maxLen ∨ ((∀ c ∈ s, isWs c = false) ∧ maxLen < s.length) := by
  have emit : ∀ (frag : List (List Char)) (clen : Nat),
      (∀ w ∈ frag, ∀ c ∈ w, isWs c = false) →
      clen = (frag.map fun w => w.length + 1).sum →
      (2 ≤ frag.length → clen ≤ maxLen) →
      (joinSp frag).length ≤ maxLen ∨
        ((∀ c ∈ joinSp frag, isWs c = false) ∧ maxLen < (joinSp frag).length) := by
    intro frag clen hfrag hsum hbound
    match frag with
    | [] => left; simp [joinSp]
    | [w] =>
      rcases le_or_lt w.length maxLen with h | h
      · left; simpa [joinSp] using h
      · right
        refine ⟨?_, by simpa [joinSp] using h⟩
        simpa [joinSp] using hfrag w (by simp)
    | w1 :: w2 :: rest =>
      left
      have hlen := joinSp_length (w1 :: w2 :: rest) (by simp)
      have := hbound (by simp)
      omega
  intro ws
  induction ws with
  | nil =>
    intro frag clen hfrag _ hsum hbound s hs
    by_cases h : frag.isEmpty
    · simp [packGo, h] at hs
    · simp only [packGo, if_neg h, List.mem_singleton] at hs
      subst hs
      exact emit frag clen hfrag hsum hbound
  | cons hd tl ih =>
    intro frag clen hfrag hws hsum hbound s hs
    have hsing : ∀ x ∈ [hd], ∀ c ∈ x, isWs c = false := by
      intro x hx
      simp only [List.mem_singleton] at hx; subst hx
      exact hws x (by simp)
    have htail : ∀ x ∈ tl, ∀ c ∈ x, isWs c = false :=
      fun x hx => hws x (by simp [hx])
    by_cases h : maxLen < clen + hd.length + 1 ∧ ¬frag.isEmpty
    · simp only [packGo, if_pos h, List.mem_cons] at hs
      rcases hs with rfl | hs
      · exact emit frag clen hfrag hsum hbound
      · exact ih [hd] (hd.length + 1) hsing htail (by simp) (by simp) s hs
    · simp only [packGo, if_neg h] at hs
      refine ih (frag ++ [hd]) (clen + hd.length + 1) ?_ htail ?_ ?_ s hs
      · intro x hx
        rcases List.mem_append.1 hx with hx | hx
        · exact hfrag x hx
        · simp only [List.mem_singleton] at hx; subst hx
          exact hws x (by simp)
      · simp only [hsum, List.map_append, List.map_cons, List.map_nil,
          List.sum_append, List.sum_cons, List.sum_nil]
        omega
      · intro h2
        rcases frag with _ | ⟨f, fs⟩
        · exact absurd h2 (by simp)
        · have hne : ¬(f :: fs : List (List Char)).isEmpty := by simp
          have : ¬maxLen < clen + hd.length + 1 := fun hc => h ⟨hc, hne⟩
          omega

/-- Helper: pushing a whole-flatten computation through a `flatMap`. -/
theorem flatten_map_flatMap {α : Type} (L : List α) (f : α → List (List Char))
    (target : α → List Char)
    (h : ∀ a ∈ L, ((f a).map nonWs).flatten = target a) :
    ((L.flatMap f).map nonWs).flatten = (L.map target).flatten := by
  induction L with
  | nil => rfl
  | cons a as ih =>
    simp only [List.flatMap_cons, List.map_append, List.flatten_append,
      List.map_cons, List.flatten_cons, h a (by simp),
      ih (fun x hx => h x (by simp [hx]))]

/-- C5: the segments returned by `segment_text`, concatenated ignoring
inserted boundary whitespace, reproduce exactly the non-whitespace
characters of the input in order; and no returned segment is longer than
`max_length` unless that segment is itself a single whitespace-free token
whose length alone exceeds `max_length`. -/
theorem segmentText_coverage_and_bound (text : List Char) (maxLen : Nat) :
    (((segmentText text maxLen).map nonWs).flatten = nonWs text) ∧
    ∀ s ∈ segmentText text maxLen,
      s.length ≤ maxLen ∨ ((∀ c ∈ s, isWs c = false) ∧ maxLen < s.length) := by
  constructor
  · unfold segmentText
    rw [flatten_map_flatMap _ _ nonWs ?_]
    · rw [nonWs_flatten_filter_nonempty, List.map_map]
      have : (List.map (nonWs ∘ stripChars) (splitNl text)) = (splitNl text).map nonWs :=
        List.map_congr_left fun p _ => nonWs_stripChars p
      rw [this, nonWs_flatten_splitNl]
    · intro para _
      by_cases h : para.length ≤ maxLen
      · simp [h]
      · rw [if_neg h]
        rw [flatten_map_flatMap _ _ nonWs ?_]
        · have h1 := punctSplit_nonWs maxLen para []
          rw [List.nil_append] at h1
          rw [h1]
        · intro seg _
          by_cases hs : seg.length ≤ maxLen
          · simp [hs]
          · rw [if_neg hs,
              packGo_nonWs maxLen (splitWs seg) [] 0 (by simp)
                (splitWsGo_wsFree seg [] (by simp))]
            simp [splitWs_flatten]
  · intro s hs
    unfold segmentText at hs
    rw [List.mem_flatMap] at hs
    obtain ⟨para, _, hs⟩ := hs
    by_cases h : para.length ≤ maxLen
    · rw [if_pos h, List.mem_singleton] at hs
      subst hs; left; exact h
    · rw [if_neg h, List.mem_flatMap] at hs
      obtain ⟨seg, _, hs⟩ := hs
      by_cases h2 : seg.length ≤ maxLen
      · rw [if_pos h2, List.mem_singleton] at hs
        subst hs; left; exact h2
      · rw [if_neg h2] at hs
        exact packGo_length maxLen (splitWs seg) [] 0 (by simp)
          (splitWsGo_wsFree seg [] (by simp)) (by simp) (by simp) s hs

/-- C5 witness: a concrete run of the theorem, discharging its membership
hypothesis at an explicit input. -/
theorem segmentText_coverage_and_bound_witness :
    ("ab cd".toList ∈ segmentText "ab cd".toList 500) ∧
    ("ab cd".toList.length ≤ 500 ∨
      ((∀ c ∈ "ab cd".toList, isWs c = false) ∧ 500 < "ab cd".toList.length)) :=
  ⟨by decide, (segmentText_coverage_and_bound "ab cd".toList 500).2 _ (by decide)⟩

/-! ### Fingerprinting and deduplication (claim C4) -/

theorem cleanGo_fingerprint (bs core sha : List Char → List Char)
    (paperId : List Char) (dedup : Bool) :
    ∀ (qs : List RawQuestion) (seen : List (List Char)),
      ∀ cq ∈ cleanGo bs core sha paperId dedup seen qs,
        cq.fingerprint = sha (paperId ++ [':', ':'] ++ stripChars (core cq.text)) := by
  intro qs
  induction qs with
  | nil => intro seen cq h; simp [cleanGo] at h
  | cons q rest ih =>
    intro seen cq h
    by_cases hc : dedup = true ∧
        (processQuestion bs core sha paperId q).fingerprint ∈ seen
    · rw [show cleanGo bs core sha paperId dedup seen (q :: rest)
          = cleanGo bs core sha paperId dedup seen rest by
        simp only [cleanGo]; rw [if_pos hc]] at h
      exact ih seen cq h
    · rw [show cleanGo bs core sha paperId dedup seen (q :: rest)
          = processQuestion bs core sha paperId q ::
            cleanGo bs core sha paperId dedup
              ((processQuestion bs core sha paperId q).fingerprint :: seen) rest by
        simp only [cleanGo]; rw [if_neg hc]] at h
      rcases List.mem_cons.1 h with rfl | h
      · rfl
      · exact ih _ cq h

theorem cleanGo_no_dedup (bs core sha : List Char → List Char)
    (paperId : List Char) :
    ∀ (qs : List RawQuestion) (seen : List (List Char)),
      cleanGo bs core sha paperId false seen qs
        = qs.map (processQuestion bs core sha paperId) := by
  intro qs
  induction qs with
  | nil => intro seen; rfl
  | cons q rest ih =>
    intro seen
    rw [show cleanGo bs core sha paperId false seen (q :: rest)
        = processQuestion bs core sha paperId q ::
          cleanGo bs core sha paperId false
            ((processQuestion bs core sha paperId q).fingerprint :: seen) rest by
      simp only [cleanGo]; rw [if_neg (by simp)], ih]
    rfl

theorem cleanGo_dedup (bs core sha : List Char → List Char) (paperId : List Char) :
    ∀ (qs : List RawQuestion) (seen prev : List (List Char)),
      (∀ f, f ∈ seen ↔ f ∈ prev) →
      cleanGo bs core sha paperId true seen qs
        = dropLaterDupsGo prev (qs.map (processQuestion bs core sha paperId)) := by
  intro qs
  induction qs with
  | nil => intro seen prev _; rfl
  | cons q rest ih =>
    intro seen prev hiff
    set cq := processQuestion bs core sha paperId q with hcq
    by_cases hmem : cq.fingerprint ∈ seen
    · rw [show cleanGo bs core sha paperId true seen (q :: rest)
          = cleanGo bs core sha paperId true seen rest by
        simp only [cleanGo]; rw [if_pos ⟨by simp, hmem⟩]]
      rw [show dropLaterDupsGo prev ((q :: rest).map (processQuestion bs core sha paperId))
          = dropLaterDupsGo (cq.fingerprint :: prev)
              (rest.map (processQuestion bs core sha paperId)) by
        simp only [List.map_cons, dropLaterDupsGo]
        rw [if_pos ((hiff _).1 hmem)]]
      refine ih seen (cq.fingerprint :: prev) fun f => ?_
      constructor
      · intro hf; exact List.mem_cons_of_mem _ ((hiff f).1 hf)
      · intro hf
        rcases List.mem_cons.1 hf with rfl | hf
        · exact hmem
        · exact (hiff f).2 hf
    · rw [show cleanGo bs core sha paperId true seen (q :: rest)
          = cq :: cleanGo bs core sha paperId true (cq.fingerprint :: seen) rest by
        simp only [cleanGo]; rw [if_neg (by simp [hmem, ← hcq])]]
      rw [show dropLaterDupsGo prev ((q :: rest).map (processQuestion bs core sha paperId))
          = cq :: dropLaterDupsGo (cq.fingerprint :: prev)
              (rest.map (processQuestion bs core sha paperId)) by
        simp only [List.map_cons, dropLaterDupsGo]
        rw [if_neg fun hp => hmem ((hiff _).2 hp)]]
      rw [ih (cq.fingerprint :: seen) (cq.fingerprint :: prev) fun f => by
        constructor
        · intro hf
          rcases List.mem_cons.1 hf with rfl | hf
          · exact List.mem_cons_self _ _
          · exact List.mem_cons_of_mem _ ((hiff f).1 hf)
        · intro hf
          rcases List.mem_cons.1 hf with rfl | hf
          · exact List.mem_cons_self _ _
          · exact List.mem_cons_of_mem _ ((hiff f).2 hf)]

/-- C4: `clean_paper_data` attaches to every emitted question the digest of
`paper_id + "::" + trimmed core content` regardless of the deduplicate
flag; with `deduplicate=False` every question passes through in order, and
with `deduplicate=True` exactly the questions whose fingerprint did not
occur earlier in the run survive, first occurrence kept, in input order.
(`core` and `sha` are the external core-content extractor and the SHA-256
hex digest; `bs` the external markup sanitizer.) -/
theorem cleanPaperData_fingerprint_dedup (bs core sha : List Char → List Char)
    (qs : List RawQuestion) (paperId : List Char) :
    (∀ (dedup : Bool), ∀ cq ∈ cleanPaperData bs core sha qs paperId dedup,
      cq.fingerprint = sha (paperId ++ [':', ':'] ++ stripChars (core cq.text))) ∧
    cleanPaperData bs core sha qs paperId false
      = qs.map (processQuestion bs core sha paperId) ∧
    cleanPaperData bs core sha qs paperId true
      = dropLaterDups (qs.map (processQuestion bs core sha paperId)) :=
  ⟨fun dedup => cleanGo_fingerprint bs core sha paperId dedup qs [],
   cleanGo_no_dedup bs core sha paperId qs [],
   cleanGo_dedup bs core sha paperId qs [] [] fun _ => Iff.rfl⟩

/-- C4 witness: the fingerprint equation discharged at a concrete cleaned
question of a concrete two-question run (the second question is a duplicate
of the first and is dropped). -/
theorem cleanPaperData_fingerprint_dedup_witness :
    (processQuestion (fun s => s) (fun s => s) (fun s => s) "P".toList
        ⟨some "1".toList, some "t".toList, some "ab".toList⟩) ∈
      cleanPaperData (fun s => s) (fun s => s) (fun s => s)
        [⟨some "1".toList, some "t".toList, some "ab".toList⟩,
         ⟨some "2".toList, some "t".toList, some "ab".toList⟩] "P".toList true ∧
    (processQuestion (fun s => s) (fun s => s) (fun s => s) "P".toList
        ⟨some "1".toList, some "t".toList, some "ab".toList⟩).fingerprint
      = (fun s => s) ("P".toList ++ [':', ':'] ++ stripChars ((fun s => s)
          (processQuestion (fun s => s) (fun s => s) (fun s => s) "P".toList
            ⟨some "1".toList, some "t".toList, some "ab".toList⟩).text)) :=
  ⟨by decide,
   (cleanPaperData_fingerprint_dedup (fun s => s) (fun s => s) (fun s => s)
      [⟨some "1".toList, some "t".toList, some "ab".toList⟩,
       ⟨some "2".toList, some "t".toList, some "ab".toList⟩] "P".toList).1
     true _ (by decide)⟩

/-! ### Math-span protection and restoration (claim C6) -/

theorem digitsFuel_mem_digits :
    ∀ (fuel n : Nat), n < fuel →
      ∀ c ∈ digitsFuel fuel n,
        c ∈ ['0', '1', '2', '3', '4', '5', '6', '7', '8', '9'] := by
  intro fuel
  induction fuel with
  | zero => intro n h; omega
  | succ fuel ih =>
    intro n _ c hc
    by_cases h10 : n < 10
    · rw [show digitsFuel (fuel + 1) n = [digitOf n] by simp [digitsFuel, h10]] at hc
      simp only [List.mem_singleton] at hc
      subst hc
      interval_cases n <;> simp [digitOf]
    · rw [show digitsFuel (fuel + 1) n
          = digitsFuel fuel (n / 10) ++ [digitOf (n % 10)] by
        simp [digitsFuel, h10]] at hc
      rcases List.mem_append.1 hc with hc | hc
      · exact ih (n / 10) (by omega) c hc
      · simp only [List.mem_singleton] at hc
        subst hc
        have : n % 10 < 10 := Nat.mod_lt _ (by omega)
        interval_cases h : n % 10 <;> simp [digitOf]

theorem natToDigits_mem_digits (n : Nat) :
    ∀ c ∈ natToDigits n, c ∈ ['0', '1', '2', '3', '4', '5', '6', '7', '8', '9'] :=
  digitsFuel_mem_digits (n + 1) n (Nat.lt_succ_self n)

theorem natToDigits_isDigit (n : Nat) : ∀ c ∈ natToDigits n, c.isDigit = true := by
  intro c hc
  have := natToDigits_mem_digits n c hc
  fin_cases this <;> decide

theorem natToDigits_not_ws (n : Nat) : ∀ c ∈ natToDigits n, isWs c = false := by
  intro c hc
  have := natToDigits_mem_digits n c hc
  fin_cases this <;> decide

theorem natToDigits_not_ctrl (n : Nat) : ∀ c ∈ natToDigits n, isCtrl c = false := by
  intro c hc
  have := natToDigits_mem_digits n c hc
  fin_cases this <;> decide

theorem digitsFuel_ne_nil (fuel n : Nat) (h : n < fuel) : digitsFuel fuel n ≠ [] := by
  cases fuel with
  | zero => omega
  | succ fuel =>
    by_cases h10 : n < 10
    · simp [digitsFuel, h10]
    · simp [digitsFuel, h10]

theorem natToDigits_ne_nil (n : Nat) : natToDigits n ≠ [] :=
  digitsFuel_ne_nil (n + 1) n (Nat.lt_succ_self n)

theorem parseNum_append_single (ds : List Char) (c : Char) :
    parseNum (ds ++ [c]) = 10 * parseNum ds + digitVal c := by
  simp [parseNum, List.foldl_append]

theorem parseNum_digitsFuel : ∀ (fuel n : Nat), n < fuel →
    parseNum (digitsFuel fuel n) = n := by
  intro fuel
  induction fuel with
  | zero => intro n h; omega
  | succ fuel ih =>
    intro n _
    by_cases h10 : n < 10
    · rw [show digitsFuel (fuel + 1) n = [digitOf n] by simp [digitsFuel, h10]]
      interval_cases n <;> decide
    · rw [show digitsFuel (fuel + 1) n
          = digitsFuel fuel (n / 10) ++ [digitOf (n % 10)] by simp [digitsFuel, h10]]
      rw [parseNum_append_single, ih (n / 10) (by omega)]
      have h1 : n % 10 < 10 := Nat.mod_lt _ (by omega)
      have h2 : digitVal (digitOf (n % 10)) = n % 10 := by
        interval_cases h : n % 10 <;> decide
      rw [h2]
      omega

theorem parseNum_natToDigits (n : Nat) : parseNum (natToDigits n) = n :=
  parseNum_digitsFuel (n + 1) n (Nat.lt_succ_self n)

theorem phMarker_mem (k : Nat) (c : Char) (hc : c ∈ phMarker k) :
    c ∈ ['_', 'M', 'A', 'T', 'H'] ∨ c ∈ natToDigits k := by
  unfold phMarker at hc
  rcases List.mem_cons.1 hc with rfl | hc
  · left; decide
  rcases List.mem_cons.1 hc with rfl | hc
  · left; decide
  rcases List.mem_cons.1 hc with rfl | hc
  · left; decide
  rcases List.mem_cons.1 hc with rfl | hc
  · left; decide
  rcases List.mem_cons.1 hc with rfl | hc
  · left; decide
  rcases List.mem_cons.1 hc with rfl | hc
  · left; decide
  rcases List.mem_cons.1 hc with rfl | hc
  · left; decide
  rcases List.mem_append.1 hc with hc | hc
  · right; exact hc
  · rcases List.mem_cons.1 hc with rfl | hc
    · left; decide
    rcases List.mem_cons.1 hc with rfl | hc
    · left; decide
    simp at hc

theorem phMarker_not_ws (k : Nat) : ∀ c ∈ phMarker k, isWs c = false := by
  intro c hc
  rcases phMarker_mem k c hc with h | h
  · fin_cases h <;> decide
  · exact natToDigits_not_ws k c h

theorem phMarker_not_ctrl (k : Nat) : ∀ c ∈ phMarker k, isCtrl c = false := by
  intro c hc
  rcases phMarker_mem k c hc with h | h
  · fin_cases h <;> decide
  · exact natToDigits_not_ctrl k c h

theorem takeWhile_all_append (p : Char → Bool) (xs : List Char) (y : Char)
    (l : List Char) (hxs : ∀ a ∈ xs, p a = true) (hy : p y = false) :
    (xs ++ y :: l).takeWhile p = xs ∧ (xs ++ y :: l).dropWhile p = y :: l := by
  induction xs with
  | nil => simp [List.takeWhile, List.dropWhile, hy]
  | cons x xs ih =>
    have hx : p x = true := hxs x (by simp)
    have := ih fun a ha => hxs a (by simp [ha])
    simp [List.takeWhile_cons, List.dropWhile_cons, hx, this.1, this.2]

/-- Parsing a placeholder at the head of `phMarker k ++ rest` yields
exactly `k` and `rest`: the greedy digit run stops at the closing
underscores, and the decimal print/parse round-trips. -/
theorem parsePH_marker (k : Nat) (rest : List Char) :
    parsePH (phMarker k ++ rest) = some (k, rest) := by
  have hsplit : phMarker k ++ rest
      = '_' :: '_' :: 'M' :: 'A' :: 'T' :: 'H' :: '_'
        :: (natToDigits k ++ ('_' :: '_' :: rest)) := by
    simp [phMarker]
  have htw := takeWhile_all_append Char.isDigit (natToDigits k) '_'
    ('_' :: rest) (natToDigits_isDigit k) (by decide)
  rw [hsplit]
  unfold parsePH
  rw [if_pos (by simp [List.take])]
  simp only [List.drop_succ_cons, List.drop_zero]
  rw [show natToDigits k ++ '_' :: '_' :: rest
      = natToDigits k ++ '_' :: ('_' :: rest) from rfl, htw.1, htw.2]
  rw [if_neg (by simpa using natToDigits_ne_nil k)]
  rw [if_pos (by simp [List.take])]
  simp [parseNum_natToDigits]

theorem parsePH_cons_ne (c : Char) (rest : List Char) (h : c ≠ '_') :
    parsePH (c :: rest) = none := by
  unfold parsePH
  rw [if_neg]
  intro heq
  rw [List.take_succ_cons] at heq
  injection heq with h1 _
  exact h h1

theorem parsePH_length (l : List Char) (k : Nat) (after : List Char)
    (h : parsePH l = some (k, after)) : after.length + 10 ≤ l.length := by
  unfold parsePH at h
  by_cases h7 : l.take 7 = ['_', '_', 'M', 'A', 'T', 'H', '_']
  · rw [if_pos h7] at h
    by_cases hds : ((l.drop 7).takeWhile Char.isDigit).isEmpty
    · rw [if_pos hds] at h; exact absurd h (by simp)
    · rw [if_neg hds] at h
      by_cases h2 : ((l.drop 7).dropWhile Char.isDigit).take 2 = ['_', '_']
      · rw [if_pos h2] at h
        have hafter : after = ((l.drop 7).dropWhile Char.isDigit).drop 2 := by
          have h' := h
          simp only [Option.some.injEq, Prod.mk.injEq] at h'
          exact h'.2.symm
        have hlen7 : 7 ≤ l.length := by
          have := congrArg List.length h7
          simp [List.length_take] at this
          omega
        have htd : ((l.drop 7).takeWhile Char.isDigit).length
            + ((l.drop 7).dropWhile Char.isDigit).length = (l.drop 7).length := by
          rw [← List.length_append, List.takeWhile_append_dropWhile]
        have hds1 : 1 ≤ ((l.drop 7).takeWhile Char.isDigit).length := by
          rcases hne : (l.drop 7).takeWhile Char.isDigit with _ | _
          · rw [hne] at hds; simp at hds
          · simp
        have h22 : 2 ≤ ((l.drop 7).dropWhile Char.isDigit).length := by
          have := congrArg List.length h2
          simp [List.length_take] at this
          omega
        have : after.length = ((l.drop 7).dropWhile Char.isDigit).length - 2 := by
          rw [hafter]; simp
        have hld : (l.drop 7).length = l.length - 7 := by simp
        omega
      · rw [if_neg h2] at h; exact absurd h (by simp)
  · rw [if_neg h7] at h; exact absurd h (by simp)

theorem restoreFuel_nil (blocks : List (List Char)) (fuel : Nat) :
    restoreFuel blocks fuel [] = [] := by
  cases fuel <;> rfl

/-- One step of the restore scan at a placeholder match. -/
theorem restoreFuel_step (blocks : List (List Char)) (fuel : Nat) (l : List Char)
    (k : Nat) (after : List Char) (h : parsePH l = some (k, after)) (hne : l ≠ []) :
    restoreFuel blocks (fuel + 1) l = blocks.getD k [] ++ restoreFuel blocks fuel after := by
  cases l with
  | nil => exact absurd rfl hne
  | cons c rest => simp only [restoreFuel, h]

/-- One step of the restore scan at a non-match. -/
theorem restoreFuel_step_none (blocks : List (List Char)) (fuel : Nat) (c : Char)
    (rest : List Char) (h : parsePH (c :: rest) = none) :
    restoreFuel blocks (fuel + 1) (c :: rest) = c :: restoreFuel blocks fuel rest := by
  simp only [restoreFuel, h]

/-- Restoration of a rendered piece list whose literal characters are not
underscores replaces each placeholder by its block (empty when the index
is out of range) and keeps every literal character. -/
theorem restoreFuel_render (blocks : List (List Char)) :
    ∀ (ps : List HPiece) (fuel : Nat),
      (renderPieces ps).length ≤ fuel →
      (∀ p ∈ ps, pieceOK p = true) →
      restoreFuel blocks fuel (renderPieces ps)
        = ps.flatMap fun p => match p with
            | .lit c => [c]
            | .ph k => blocks.getD k [] := by
  intro ps
  induction ps with
  | nil => intro fuel _ _; simp [renderPieces, restoreFuel_nil]
  | cons p rest ih =>
    intro fuel hfuel hok
    have hokp := hok p (by simp)
    have hokrest : ∀ q ∈ rest, pieceOK q = true := fun q hq => hok q (by simp [hq])
    cases p with
    | lit c =>
      have hc : c ≠ '_' := by simpa [pieceOK] using hokp
      rw [show renderPieces (.lit c :: rest) = c :: renderPieces rest from rfl] at hfuel ⊢
      rw [List.length_cons] at hfuel
      cases fuel with
      | zero => omega
      | succ fuel =>
        rw [restoreFuel_step_none blocks fuel c _ (parsePH_cons_ne c _ hc)]
        rw [ih fuel (by omega) hokrest]
        rfl
    | ph k =>
      rw [show renderPieces (.ph k :: rest) = phMarker k ++ renderPieces rest from
        rfl] at hfuel ⊢
      have hp := parsePH_marker k (renderPieces rest)
      have hlen := parsePH_length _ _ _ hp
      cases fuel with
      | zero => omega
      | succ fuel =>
        rw [restoreFuel_step blocks fuel _ k _ hp (by simp [phMarker])]
        rw [ih fuel (by omega) hokrest]
        rfl

theorem restoreMath_render (blocks : List (List Char)) (ps : List HPiece)
    (hok : ∀ p ∈ ps, pieceOK p = true) :
    restoreMath blocks (renderPieces ps)
      = ps.flatMap fun p => match p with
          | .lit c => [c]
          | .ph k => blocks.getD k [] :=
  restoreFuel_render blocks ps (renderPieces ps).length le_rfl hok

theorem renderPieces_append (a b : List HPiece) :
    renderPieces (a ++ b) = renderPieces a ++ renderPieces b := by
  induction a with
  | nil => rfl
  | cons p ps ih =>
    cases p with
    | lit c => simp [renderPieces, ih]
    | ph k => simp [renderPieces, ih]

theorem phList_append (a b : List HPiece) : phList (a ++ b) = phList a ++ phList b :=
  List.filterMap_append a b _

theorem dropWhile_ws_render (ps : List HPiece) :
    (renderPieces ps).dropWhile isWs = renderPieces (dropLitWs ps) := by
  induction ps with
  | nil => rfl
  | cons p rest ih =>
    cases p with
    | lit c =>
      by_cases h : isWs c
      · rw [show renderPieces (.lit c :: rest) = c :: renderPieces rest from rfl,
          List.dropWhile_cons_of_pos h, ih]
        simp [dropLitWs, h]
      · rw [show renderPieces (.lit c :: rest) = c :: renderPieces rest from rfl,
          List.dropWhile_cons_of_neg (by simpa using h)]
        simp [dropLitWs, h, renderPieces]
    | ph k =>
      rw [show renderPieces (.ph k :: rest) = phMarker k ++ renderPieces rest from rfl]
      rw [show phMarker k ++ renderPieces rest
          = '_' :: (('_' :: 'M' :: 'A' :: 'T' :: 'H' :: '_'
            :: (natToDigits k ++ ['_', '_'])) ++ renderPieces rest) by simp [phMarker]]
      rw [List.dropWhile_cons_of_neg (by decide)]
      simp [dropLitWs, renderPieces, phMarker]

theorem phList_dropLitWs (ps : List HPiece) : phList (dropLitWs ps) = phList ps := by
  induction ps with
  | nil => rfl
  | cons p rest ih =>
    cases p with
    | lit c =>
      by_cases h : isWs c
      · rw [show dropLitWs (.lit c :: rest) = dropLitWs rest by simp [dropLitWs, h]]
        simpa [phList, List.filterMap_cons] using ih
      · simp [dropLitWs, h]
    | ph k => simp [dropLitWs]

theorem dropLitWs_subset (ps : List HPiece) : ∀ p ∈ dropLitWs ps, p ∈ ps := by
  induction ps with
  | nil => intro p hp; simp [dropLitWs] at hp
  | cons q rest ih =>
    intro p hp
    cases q with
    | lit c =>
      by_cases h : isWs c
      · rw [show dropLitWs (.lit c :: rest) = dropLitWs rest by simp [dropLitWs, h]] at hp
        exact List.mem_cons_of_mem _ (ih p hp)
      · rwa [show dropLitWs (.lit c :: rest) = .lit c :: rest by simp [dropLitWs, h]] at hp
    | ph k => rwa [show dropLitWs (.ph k :: rest) = .ph k :: rest from rfl] at hp

theorem dropLitWs_length (ps : List HPiece) : (dropLitWs ps).length ≤ ps.length := by
  induction ps with
  | nil => simp [dropLitWs]
  | cons p rest ih =>
    cases p with
    | lit c =>
      by_cases h : isWs c
      · rw [show dropLitWs (.lit c :: rest) = dropLitWs rest by simp [dropLitWs, h]]
        exact le_trans ih (by simp)
      · rw [show dropLitWs (.lit c :: rest) = .lit c :: rest by simp [dropLitWs, h]]
    | ph k => simp [dropLitWs]

theorem removeCtrl_render (ps : List HPiece) :
    removeCtrl (renderPieces ps) = renderPieces (ps.filter keepPiece) := by
  induction ps with
  | nil => rfl
  | cons p rest ih =>
    cases p with
    | lit c =>
      by_cases h : isCtrl c
      · rw [show renderPieces (.lit c :: rest) = c :: renderPieces rest from rfl]
        rw [show removeCtrl (c :: renderPieces rest) = removeCtrl (renderPieces rest) by
          simp [removeCtrl, List.filter_cons, h]]
        rw [ih]
        congr 1
        simp [List.filter_cons, keepPiece, h]
      · rw [show renderPieces (.lit c :: rest) = c :: renderPieces rest from rfl]
        rw [show removeCtrl (c :: renderPieces rest) = c :: removeCtrl (renderPieces rest) by
          simp [removeCtrl, List.filter_cons, h]]
        rw [ih]
        rw [show (HPiece.lit c :: rest).filter keepPiece
            = .lit c :: rest.filter keepPiece by simp [List.filter_cons, keepPiece, h]]
        rfl
    | ph k =>
      rw [show renderPieces (.ph k :: rest) = phMarker k ++ renderPieces rest from rfl]
      rw [show removeCtrl (phMarker k ++ renderPieces rest)
          = phMarker k ++ removeCtrl (renderPieces rest) by
        unfold removeCtrl
        rw [List.filter_append]
        congr 1
        refine List.filter_eq_self.2 fun c hc => ?_
        simp [phMarker_not_ctrl k c hc]]
      rw [ih]
      rw [show (HPiece.ph k :: rest).filter keepPiece
          = .ph k :: rest.filter keepPiece by simp [List.filter_cons, keepPiece]]
      rfl

theorem phList_filter_keep (ps : List HPiece) :
    phList (ps.filter keepPiece) = phList ps := by
  induction ps with
  | nil => rfl
  | cons p rest ih =>
    cases p with
    | lit c =>
      by_cases h : isCtrl c
      · rw [show (HPiece.lit c :: rest).filter keepPiece = rest.filter keepPiece by
          simp [List.filter_cons, keepPiece, h]]
        simpa [phList, List.filterMap_cons] using ih
      · rw [show (HPiece.lit c :: rest).filter keepPiece
            = .lit c :: rest.filter keepPiece by simp [List.filter_cons, keepPiece, h]]
        simpa [phList, List.filterMap_cons] using ih
    | ph k =>
      rw [show (HPiece.ph k :: rest).filter keepPiece
          = .ph k :: rest.filter keepPiece by simp [List.filter_cons, keepPiece]]
      simpa [phList, List.filterMap_cons] using ih

theorem collapse_cons_nonws (x : Char) (hx : isWs x = false) (xs : List Char) :
    collapseWs (x :: xs) = x :: collapseWs xs := by
  cases xs with
  | nil => simp [collapseWs, hx]
  | cons d rest => simp [collapseWs, hx]

theorem collapse_cons_ws : ∀ (X : List Char) (c : Char), isWs c = true →
    collapseWs (c :: X) = ' ' :: collapseWs (X.dropWhile isWs) := by
  intro X
  induction X with
  | nil => intro c hc; simp [collapseWs, hc]
  | cons d rest ih =>
    intro c hc
    by_cases hd : isWs d
    · rw [show collapseWs (c :: d :: rest) = collapseWs (d :: rest) by
        simp [collapseWs, hc, hd]]
      rw [ih d hd, List.dropWhile_cons_of_pos hd]
    · rw [show collapseWs (c :: d :: rest) = ' ' :: d :: collapseWs rest by
        simp [collapseWs, hc, hd]]
      rw [List.dropWhile_cons_of_neg (by simpa using hd),
        collapse_cons_nonws d (by simpa using hd) rest]

theorem collapse_append_nonws (m X : List Char) (hm : ∀ c ∈ m, isWs c = false) :
    collapseWs (m ++ X) = m ++ collapseWs X := by
  induction m with
  | nil => rfl
  | cons m0 m' ih =>
    rw [List.cons_append, collapse_cons_nonws m0 (hm m0 (by simp)) (m' ++ X),
      ih fun c hc => hm c (by simp [hc])]
    rfl

/-- Whitespace collapse maps a rendered piece list to a rendered piece
list with the same placeholders (placeholders contain no whitespace, so no
run crosses one) and still no literal underscores. -/
theorem collapse_render : ∀ (n : Nat) (ps : List HPiece), ps.length ≤ n →
    (∀ p ∈ ps, pieceOK p = true) →
    ∃ ps', collapseWs (renderPieces ps) = renderPieces ps' ∧
      phList ps' = phList ps ∧ (∀ p ∈ ps', pieceOK p = true) := by
  intro n
  induction n with
  | zero =>
    intro ps hlen _
    rw [List.length_eq_zero.1 (Nat.le_zero.1 hlen)]
    exact ⟨[], rfl, rfl, by simp⟩
  | succ n ih =>
    intro ps hlen hok
    cases ps with
    | nil => exact ⟨[], rfl, rfl, by simp⟩
    | cons p rest =>
      have hokrest : ∀ q ∈ rest, pieceOK q = true := fun q hq => hok q (by simp [hq])
      cases p with
      | lit c =>
        by_cases hw : isWs c
        · rw [show renderPieces (.lit c :: rest) = c :: renderPieces rest from rfl,
            collapse_cons_ws (renderPieces rest) c hw, dropWhile_ws_render]
          obtain ⟨ps'', hr, hph, hok''⟩ := ih (dropLitWs rest)
            (le_trans (dropLitWs_length rest) (by simpa using hlen))
            (fun q hq => hokrest q (dropLitWs_subset rest q hq))
          refine ⟨.lit ' ' :: ps'', ?_, ?_, ?_⟩
          · rw [hr]; rfl
          · rw [show phList (HPiece.lit ' ' :: ps'') = phList ps'' by simp [phList],
              hph, phList_dropLitWs,
              show phList (HPiece.lit c :: rest) = phList rest by simp [phList]]
          · intro q hq
            rcases List.mem_cons.1 hq with rfl | hq
            · decide
            · exact hok'' q hq
        · rw [show renderPieces (.lit c :: rest) = c :: renderPieces rest from rfl,
            collapse_cons_nonws c (by simpa using hw) (renderPieces rest)]
          obtain ⟨ps'', hr, hph, hok''⟩ := ih rest (by simpa using hlen) hokrest
          refine ⟨.lit c :: ps'', ?_, ?_, ?_⟩
          · rw [hr]; rfl
          · simpa [phList, List.filterMap_cons] using hph
          · intro q hq
            rcases List.mem_cons.1 hq with rfl | hq
            · exact hok _ (by simp)
            · exact hok'' q hq
      | ph k =>
        rw [show renderPieces (.ph k :: rest) = phMarker k ++ renderPieces rest from rfl,
          collapse_append_nonws (phMarker k) (renderPieces rest) (phMarker_not_ws k)]
        obtain ⟨ps'', hr, hph, hok''⟩ := ih rest (by simpa using hlen) hokrest
        refine ⟨.ph k :: ps'', ?_, ?_, ?_⟩
        · rw [hr]; rfl
        · simpa [phList, List.filterMap_cons] using hph
        · intro q hq
          rcases List.mem_cons.1 hq with rfl | hq
          · rfl
          · exact hok'' q hq

theorem stripRight_append_ws (Y : List Char) (c : Char) (hc : isWs c = true) :
    stripRight (Y ++ [c]) = stripRight Y := by
  unfold stripRight
  rw [List.reverse_append, List.reverse_singleton, List.singleton_append,
    List.dropWhile_cons_of_pos hc]

theorem stripRight_append_last_nonws (Y m : List Char) (c : Char) (t : List Char)
    (hrev : m.reverse = c :: t) (hc : isWs c = false) :
    stripRight (Y ++ m) = Y ++ m := by
  unfold stripRight
  rw [List.reverse_append, hrev, List.cons_append,
    List.dropWhile_cons_of_neg (by simpa using hc), ← List.cons_append, ← hrev,
    ← List.reverse_append, List.reverse_reverse]

theorem phMarker_reverse (k : Nat) :
    ∃ t, (phMarker k).reverse = '_' :: t := by
  refine ⟨(('_' :: '_' :: 'M' :: 'A' :: 'T' :: 'H' :: '_' :: natToDigits k)
    ++ ['_']).reverse, ?_⟩
  have h : phMarker k
      = (('_' :: '_' :: 'M' :: 'A' :: 'T' :: 'H' :: '_' :: natToDigits k)
        ++ ['_']) ++ ['_'] := by
    simp [phMarker]
  rw [h, List.reverse_append, List.reverse_singleton, List.singleton_append]

/-- Trailing-whitespace removal maps a rendered piece list to a rendered
piece list with the same placeholders. -/
theorem stripRight_render (ps : List HPiece) (hok : ∀ p ∈ ps, pieceOK p = true) :
    ∃ ps', stripRight (renderPieces ps) = renderPieces ps' ∧
      phList ps' = phList ps ∧ (∀ p ∈ ps', pieceOK p = true) := by
  induction ps using List.reverseRecOn with
  | nil => exact ⟨[], rfl, rfl, by simp⟩
  | append_singleton ps0 p ih =>
    have hok0 : ∀ q ∈ ps0, pieceOK q = true := fun q hq => hok q (by simp [hq])
    cases p with
    | lit c =>
      by_cases hw : isWs c
      · obtain ⟨ps', hr, hph, hok'⟩ := ih hok0
        refine ⟨ps', ?_, ?_, hok'⟩
        · rw [renderPieces_append, show renderPieces [HPiece.lit c] = [c] from rfl,
            stripRight_append_ws _ c hw, hr]
        · rw [hph, phList_append]
          simp [phList]
      · refine ⟨ps0 ++ [.lit c], ?_, rfl, hok⟩
        rw [renderPieces_append, show renderPieces [HPiece.lit c] = [c] from rfl]
        exact stripRight_append_last_nonws _ [c] c [] rfl (by simpa using hw)
    | ph k =>
      obtain ⟨t, ht⟩ := phMarker_reverse k
      refine ⟨ps0 ++ [.ph k], ?_, rfl, hok⟩
      rw [renderPieces_append,
        show renderPieces [HPiece.ph k] = phMarker k ++ [] from rfl, List.append_nil]
      exact stripRight_append_last_nonws _ (phMarker k) '_' t ht (by decide)

theorem takeUntilDollar_length : ∀ (l : List Char) (i a : List Char),
    takeUntilDollar l = some (i, a) → a.length < l.length := by
  intro l
  induction l with
  | nil => intro i a h; simp [takeUntilDollar] at h
  | cons c rest ih =>
    intro i a h
    by_cases hc : c = '$'
    · rw [show takeUntilDollar (c :: rest) = some ([], rest) by
        simp [takeUntilDollar, hc]] at h
      simp only [Option.some.injEq, Prod.mk.injEq] at h
      rw [← h.2]
      simp
    · by_cases hn : c = '\n'
      · rw [show takeUntilDollar (c :: rest) = none by
          simp [takeUntilDollar, hc, hn]] at h
        exact absurd h (by simp)
      · rw [show takeUntilDollar (c :: rest)
            = (takeUntilDollar rest).map fun p => (c :: p.1, p.2) by
          simp [takeUntilDollar, hc, hn]] at h
        cases h' : takeUntilDollar rest with
        | none => rw [h'] at h; exact absurd h (by simp)
        | some p =>
          obtain ⟨p1, p2⟩ := p
          rw [h'] at h
          simp only [Option.map_some'] at h
          simp only [Option.some.injEq, Prod.mk.injEq] at h
          rw [← h.2]
          exact Nat.lt_trans (ih p1 p2 h') (by simp)

theorem takeUntilBracket_length : ∀ (l : List Char) (i a : List Char),
    takeUntilBracket l = some (i, a) → a.length < l.length := by
  intro l
  induction l with
  | nil => intro i a h; simp [takeUntilBracket] at h
  | cons c rest ih =>
    intro i a h
    cases rest with
    | nil => simp [takeUntilBracket] at h
    | cons d rest2 =>
      by_cases hcd : c = '\\' ∧ d = ']'
      · rw [show takeUntilBracket (c :: d :: rest2) = some ([], rest2) by
          simp [takeUntilBracket, hcd]] at h
        simp only [Option.some.injEq, Prod.mk.injEq] at h
        rw [← h.2]
        simp
        omega
      · by_cases hn : c = '\n'
        · rw [show takeUntilBracket (c :: d :: rest2) = none by
            simp [takeUntilBracket, hcd, hn]] at h
          exact absurd h (by simp)
        · rw [show takeUntilBracket (c :: d :: rest2)
              = (takeUntilBracket (d :: rest2)).map fun p => (c :: p.1, p.2) by
            simp [takeUntilBracket, hcd, hn]] at h
          cases h' : takeUntilBracket (d :: rest2) with
          | none => rw [h'] at h; exact absurd h (by simp)
          | some p =>
            obtain ⟨p1, p2⟩ := p
            rw [h'] at h
            simp only [Option.map_some'] at h
            simp only [Option.some.injEq, Prod.mk.injEq] at h
            rw [← h.2]
            exact Nat.lt_trans (ih p1 p2 h') (by simp)

theorem protectFuel_dollar_some (fuel : Nat) (rest : List Char) (n : Nat)
    (inside after : List Char) (h : takeUntilDollar rest = some (inside, after)) :
    protectFuel (fuel + 1) ('$' :: rest) n
      = (.ph n :: (protectFuel fuel after (n + 1)).1,
         ('$' :: inside ++ ['$']) :: (protectFuel fuel after (n + 1)).2) := by
  simp [protectFuel, h]

theorem protectFuel_dollar_none (fuel : Nat) (rest : List Char) (n : Nat)
    (h : takeUntilDollar rest = none) :
    protectFuel (fuel + 1) ('$' :: rest) n
      = (.lit '$' :: (protectFuel fuel rest n).1, (protectFuel fuel rest n).2) := by
  simp [protectFuel, h]

theorem protectFuel_bracket_some (fuel : Nat) (rest : List Char) (n : Nat)
    (inside after : List Char) (hh : rest.head? = some '[')
    (h : takeUntilBracket rest.tail = some (inside, after)) :
    protectFuel (fuel + 1) ('\\' :: rest) n
      = (.ph n :: (protectFuel fuel after (n + 1)).1,
         ('\\' :: '[' :: inside ++ ['\\', ']']) :: (protectFuel fuel after (n + 1)).2) := by
  simp [protectFuel, hh, h]

theorem protectFuel_bracket_none (fuel : Nat) (rest : List Char) (n : Nat)
    (hh : rest.head? = some '[') (h : takeUntilBracket rest.tail = none) :
    protectFuel (fuel + 1) ('\\' :: rest) n
      = (.lit '\\' :: (protectFuel fuel rest n).1, (protectFuel fuel rest n).2) := by
  simp [protectFuel, hh, h]

theorem protectFuel_other (fuel : Nat) (c : Char) (rest : List Char) (n : Nat)
    (hc : ¬c = '$') (hb : ¬(c = '\\' ∧ rest.head? = some '[')) :
    protectFuel (fuel + 1) (c :: rest) n
      = (.lit c :: (protectFuel fuel rest n).1, (protectFuel fuel rest n).2) := by
  simp only [protectFuel]
  rw [if_neg hc, if_neg hb]

/-- The placeholder indices of the protected text are exactly
`n, n+1, ..., n + #blocks - 1`, in order: block `k` of the capture list is
represented by placeholder `k`. -/
theorem protectFuel_phList : ∀ (fuel : Nat) (l : List Char) (n : Nat),
    l.length ≤ fuel →
    phList (protectFuel fuel l n).1
      = List.range' n (protectFuel fuel l n).2.length := by
  intro fuel
  induction fuel with
  | zero =>
    intro l n hl
    rw [List.length_eq_zero.1 (Nat.le_zero.1 hl)]
    rfl
  | succ fuel ih =>
    intro l n hl
    cases l with
    | nil => rfl
    | cons c rest =>
      rw [List.length_cons] at hl
      by_cases hc : c = '$'
      · subst hc
        cases h : takeUntilDollar rest with
        | some p =>
          obtain ⟨inside, after⟩ := p
          have hlen := takeUntilDollar_length rest inside after h
          rw [protectFuel_dollar_some fuel rest n inside after h]
          rw [show phList (HPiece.ph n :: (protectFuel fuel after (n + 1)).1)
              = n :: phList (protectFuel fuel after (n + 1)).1 by
            simp [phList, List.filterMap_cons]]
          rw [ih after (n + 1) (by omega), List.length_cons, List.range'_succ]
        | none =>
          rw [protectFuel_dollar_none fuel rest n h]
          rw [show phList (HPiece.lit '$' :: (protectFuel fuel rest n).1)
              = phList (protectFuel fuel rest n).1 by simp [phList, List.filterMap_cons]]
          exact ih rest n (by omega)
      · by_cases hb : c = '\\' ∧ rest.head? = some '['
        · cases h : takeUntilBracket rest.tail with
          | some p =>
            obtain ⟨inside, after⟩ := p
            have hlen := takeUntilBracket_length rest.tail inside after h
            have hrest : rest ≠ [] := by
              intro hr; rw [hr] at hb; simp at hb
            have htl : rest.tail.length = rest.length - 1 := List.length_tail rest
            have hr1 : 1 ≤ rest.length := by
              cases rest with
              | nil => exact absurd rfl hrest
              | cons _ _ => simp
            rw [hb.1, protectFuel_bracket_some fuel rest n inside after hb.2 h]
            rw [show phList (HPiece.ph n :: (protectFuel fuel after (n + 1)).1)
                = n :: phList (protectFuel fuel after (n + 1)).1 by
              simp [phList, List.filterMap_cons]]
            rw [ih after (n + 1) (by omega), List.length_cons, List.range'_succ]
          | none =>
            rw [hb.1, protectFuel_bracket_none fuel rest n hb.2 h]
            rw [show phList (HPiece.lit '\\' :: (protectFuel fuel rest n).1)
                = phList (protectFuel fuel rest n).1 by simp [phList, List.filterMap_cons]]
            exact ih rest n (by omega)
        · rw [protectFuel_other fuel c rest n hc hb]
          rw [show phList (HPiece.lit c :: (protectFuel fuel rest n).1)
              = phList (protectFuel fuel rest n).1 by simp [phList, List.filterMap_cons]]
          exact ih rest n (by omega)

theorem protectHtml_phList (raw : List Char) :
    phList (protectHtml raw).1 = List.range (protectHtml raw).2.length := by
  rw [List.range_eq_range']
  exact protectFuel_phList raw.length raw 0 le_rfl

/-- Every captured math block of an input whose literal (non-math) text
contains no underscore survives `clean_html` verbatim, provided the
bleach/soup stage returns the protected text unchanged. -/
theorem cleanHtml_spans_survive (bs : List Char → List Char) (raw : List Char)
    (hbs : bs (renderPieces (protectHtml raw).1) = renderPieces (protectHtml raw).1)
    (hok : ∀ p ∈ (protectHtml raw).1, pieceOK p = true) :
    ∀ b ∈ (protectHtml raw).2, b <:+: cleanHtml bs raw := by
  intro b hb
  obtain ⟨k, hk, hbk⟩ := List.mem_iff_getElem.1 hb
  show b <:+: restoreMath (protectHtml raw).2
    (stripChars (removeCtrl (collapseWs (bs (renderPieces (protectHtml raw).1)))))
  rw [hbs]
  obtain ⟨ps1, h1, hph1, hok1⟩ :=
    collapse_render (protectHtml raw).1.length (protectHtml raw).1 le_rfl hok
  rw [h1, removeCtrl_render]
  unfold stripChars
  rw [show stripLeft (renderPieces (ps1.filter keepPiece))
      = renderPieces (dropLitWs (ps1.filter keepPiece)) from dropWhile_ws_render _]
  have hokfilt : ∀ p ∈ dropLitWs (ps1.filter keepPiece), pieceOK p = true :=
    fun p hp => hok1 p (List.mem_of_mem_filter (dropLitWs_subset _ p hp))
  obtain ⟨ps4, h4, hph4, hok4⟩ := stripRight_render (dropLitWs (ps1.filter keepPiece)) hokfilt
  rw [h4, restoreMath_render _ _ hok4]
  have hkph : k ∈ phList ps4 := by
    rw [hph4, phList_dropLitWs, phList_filter_keep, hph1, protectHtml_phList]
    simpa using hk
  obtain ⟨p, hpmem, hpk⟩ := List.mem_filterMap.1 hkph
  have hp : p = .ph k := by
    cases p with
    | lit c => simp at hpk
    | ph j => simp at hpk; rw [hpk]
  subst hp
  obtain ⟨s, t, hst⟩ := List.append_of_mem hpmem
  rw [hst, List.flatMap_append, List.flatMap_cons]
  have hgd : (protectHtml raw).2.getD k [] = b := by
    rw [List.getD_eq_getElem _ _ hk, hbk]
  refine ⟨s.flatMap fun p => match p with
      | .lit c => [c]
      | .ph k => (protectHtml raw).2.getD k [],
    t.flatMap fun p => match p with
      | .lit c => [c]
      | .ph k => (protectHtml raw).2.getD k [], ?_⟩
  rw [← hgd]
  simp [List.append_assoc]

/-- A placeholder whose index is outside the captured block list restores
to the empty string (the `idx < len(math_blocks)` guard in
`restore_math`). -/
theorem restoreMath_out_of_range (blocks : List (List Char)) (k : Nat)
    (h : blocks.length ≤ k) : restoreMath blocks (phMarker k) = [] := by
  unfold restoreMath
  have hp : parsePH (phMarker k) = some (k, []) := by
    simpa using parsePH_marker k []
  have hlen : 1 ≤ (phMarker k).length := by simp [phMarker]
  obtain ⟨f, hf⟩ : ∃ f, (phMarker k).length = f + 1 := ⟨(phMarker k).length - 1, by omega⟩
  rw [hf, restoreFuel_step blocks f (phMarker k) k [] hp (by simp [phMarker]),
    restoreFuel_nil, List.getD_eq_default _ _ h]
  rfl

/-- C6 (amended): `clean_html` preserves every `$...$` / `\[...\]` math
span verbatim — each captured span appears unchanged in the output — for
every input whose literal text outside the math spans contains no
underscore character (the counterexample shows that a literal underscore
run can merge with an inserted placeholder into a spurious
`__MATH_(\d+)__` restore match that destroys a span), assuming the
external bleach/BeautifulSoup stage returns the placeholder-protected
text unchanged; in particular the concrete example
`"<p>Compute $x^2+1$ here</p>"` keeps `$x^2+1$` (see the witness).  And a
restore placeholder whose index is outside the captured span list is
replaced by the empty string, raising no error. -/
theorem cleanHtml_math_spec (bs : List Char → List Char) (raw : List Char)
    (hbs : bs (renderPieces (protectHtml raw).1) = renderPieces (protectHtml raw).1)
    (hok : ∀ p ∈ (protectHtml raw).1, pieceOK p = true) :
    (∀ b ∈ (protectHtml raw).2, b <:+: cleanHtml bs raw) ∧
    ∀ (blocks : List (List Char)) (k : Nat), blocks.length ≤ k →
      restoreMath blocks (phMarker k) = [] :=
  ⟨cleanHtml_spans_survive bs raw hbs hok,
   fun blocks k h => restoreMath_out_of_range blocks k h⟩

/-- C6 counterexample: the input `"__MATH_1$a$$b$"` contains the math span
`$a$` (the first captured block), yet the `clean_html` output — with the
bleach/soup stage acting as the identity, which it is on this tag-free,
entity-free text — is `"$b$MATH_0__$b$"` and does not contain `$a$`: the
literal `__MATH_1` of the raw text merges with the following inserted
placeholder `__MATH_0__` into a spurious `__MATH_1__` match consumed
first by the restore scan.  So the claim "every math span appears
unchanged in the output" is false of the code as written. -/
theorem cleanHtml_math_counterexample :
    "$a$".toList ∈ (protectHtml "__MATH_1$a$$b$".toList).2 ∧
    cleanHtml (fun s => s) "__MATH_1$a$$b$".toList = "$b$MATH_0__$b$".toList ∧
    ¬ ("$a$".toList <:+: cleanHtml (fun s => s) "__MATH_1$a$$b$".toList) :=
  ⟨by decide, by decide, by decide⟩

/-- C6 witness: the amended theorem applied to the spec's own example,
with the bleach/soup parameter instantiated by the identity (its actual
behaviour on this already-clean paragraph) — the output contains
`$x^2+1$` — and the out-of-range conjunct evaluated at placeholder 5
against an empty block list. -/
theorem cleanHtml_math_spec_witness :
    ("$x^2+1$".toList <:+:
      cleanHtml (fun s => s) "<p>Compute $x^2+1$ here</p>".toList) ∧
    restoreMath [] (phMarker 5) = [] :=
  ⟨(cleanHtml_math_spec (fun s => s) "<p>Compute $x^2+1$ here</p>".toList rfl
      (by decide)).1 _ (by decide),
   (cleanHtml_math_spec (fun s => s) "<p>Compute $x^2+1$ here</p>".toList rfl
      (by decide)).2 [] 5 (by decide)⟩

/-! ### Similarity engine: basic real-vector facts (claims C1, C2, C10) -/

theorem sqSum_nonneg (v : List ℝ) : 0 ≤ sqSum v := by
  refine List.sum_nonneg fun x hx => ?_
  obtain ⟨y, _, rfl⟩ := List.mem_map.1 hx
  positivity

theorem all_zero_of_sqSum_eq_zero : ∀ (v : List ℝ), sqSum v = 0 → ∀ x ∈ v, x = 0 := by
  intro v
  induction v with
  | nil => intro _ x hx; simp at hx
  | cons y rest ih =>
    intro h x hx
    rw [show sqSum (y :: rest) = y ^ 2 + sqSum rest by simp [sqSum]] at h
    have hy : y ^ 2 = 0 ∧ sqSum rest = 0 := by
      constructor <;> nlinarith [sqSum_nonneg rest, sq_nonneg y]
    rcases List.mem_cons.1 hx with rfl | hx
    · exact pow_eq_zero_iff (by norm_num) |>.1 hy.1
    · exact ih hy.2 x hx

theorem sqSum_eq_zero_of_normL2_eq_zero (v : List ℝ) (h : normL2 v = 0) :
    sqSum v = 0 := by
  have := Real.sqrt_eq_zero'.1 h
  have h2 := sqSum_nonneg v
  unfold normL2 at *
  linarith

theorem dotList_zero_left : ∀ (a b : List ℝ), (∀ x ∈ a, x = 0) → dotList a b = 0 := by
  intro a
  induction a with
  | nil => intro b _; simp [dotList]
  | cons x rest ih =>
    intro b h
    cases b with
    | nil => simp [dotList]
    | cons y bs =>
      rw [show dotList (x :: rest) (y :: bs) = x * y + dotList rest bs by
        simp [dotList]]
      rw [h x (by simp), ih bs fun z hz => h z (by simp [hz])]
      ring

theorem dotList_zero_right : ∀ (a b : List ℝ), (∀ x ∈ b, x = 0) → dotList a b = 0 := by
  intro a
  induction a with
  | nil => intro b _; simp [dotList]
  | cons x rest ih =>
    intro b h
    cases b with
    | nil => simp [dotList]
    | cons y bs =>
      rw [show dotList (x :: rest) (y :: bs) = x * y + dotList rest bs by
        simp [dotList]]
      rw [h y (by simp), ih bs fun z hz => h z (by simp [hz])]
      ring

theorem sklearnNormalizeRow_zero (v : List ℝ) (h : normL2 v = 0) :
    ∀ x ∈ sklearnNormalizeRow v, x = 0 := by
  intro x hx
  obtain ⟨y, hy, rfl⟩ := List.mem_map.1 hx
  rw [all_zero_of_sqSum_eq_zero v (sqSum_eq_zero_of_normL2_eq_zero v h) y hy]
  simp

theorem cosineSimEntry_zero_of_norm_zero (A B : List (List ℝ)) (i j : Nat)
    (h : normL2 (A.getD i []) = 0 ∨ normL2 (B.getD j []) = 0) :
    cosineSimEntry A B i j = 0 := by
  unfold cosineSimEntry
  rcases h with h | h
  · exact dotList_zero_left _ _ (sklearnNormalizeRow_zero _ h)
  · exact dotList_zero_right _ _ (sklearnNormalizeRow_zero _ h)

theorem dotList_eq_sum_range : ∀ (a b : List ℝ),
    dotList a b = ∑ i ∈ Finset.range (min a.length b.length),
      a.getD i 0 * b.getD i 0 := by
  intro a
  induction a with
  | nil => intro b; simp [dotList]
  | cons x rest ih =>
    intro b
    cases b with
    | nil => simp [dotList]
    | cons y bs =>
      rw [show dotList (x :: rest) (y :: bs) = x * y + dotList rest bs by
        simp [dotList], ih bs]
      rw [show min (x :: rest).length (y :: bs).length
          = min rest.length bs.length + 1 by simp; omega]
      rw [Finset.sum_range_succ']
      simp [add_comm]

theorem sqSum_eq_sum_range : ∀ (v : List ℝ),
    sqSum v = ∑ i ∈ Finset.range v.length, v.getD i 0 ^ 2 := by
  intro v
  induction v with
  | nil => simp [sqSum]
  | cons x rest ih =>
    rw [show sqSum (x :: rest) = x ^ 2 + sqSum rest by simp [sqSum], ih]
    rw [List.length_cons, Finset.sum_range_succ']
    simp [add_comm]

theorem dotList_le_norm_mul_norm (a b : List ℝ) :
    dotList a b ≤ normL2 a * normL2 b := by
  set n := min a.length b.length with hn
  have h1 : dotList a b ≤ Real.sqrt (∑ i ∈ Finset.range n, a.getD i 0 ^ 2)
      * Real.sqrt (∑ i ∈ Finset.range n, b.getD i 0 ^ 2) := by
    rw [dotList_eq_sum_range]
    have hcs := Finset.sum_mul_sq_le_sq_mul_sq (Finset.range n)
      (fun i => a.getD i 0) (fun i => b.getD i 0)
    calc ∑ i ∈ Finset.range n, a.getD i 0 * b.getD i 0
        ≤ |∑ i ∈ Finset.range n, a.getD i 0 * b.getD i 0| := le_abs_self _
      _ = Real.sqrt ((∑ i ∈ Finset.range n, a.getD i 0 * b.getD i 0) ^ 2) :=
          (Real.sqrt_sq_eq_abs _).symm
      _ ≤ Real.sqrt ((∑ i ∈ Finset.range n, a.getD i 0 ^ 2)
            * ∑ i ∈ Finset.range n, b.getD i 0 ^ 2) := Real.sqrt_le_sqrt hcs
      _ = Real.sqrt (∑ i ∈ Finset.range n, a.getD i 0 ^ 2)
            * Real.sqrt (∑ i ∈ Finset.range n, b.getD i 0 ^ 2) :=
          Real.sqrt_mul (Finset.sum_nonneg fun i _ => sq_nonneg _) _
  refine le_trans h1 ?_
  unfold normL2
  rw [sqSum_eq_sum_range a, sqSum_eq_sum_range b]
  have hmono : ∀ (v : List ℝ), ∑ i ∈ Finset.range n, v.getD i 0 ^ 2
      ≤ ∑ i ∈ Finset.range v.length, v.getD i 0 ^ 2 → True := fun _ _ => trivial
  have ha : ∑ i ∈ Finset.range n, a.getD i 0 ^ 2
      ≤ ∑ i ∈ Finset.range a.length, a.getD i 0 ^ 2 :=
    Finset.sum_le_sum_of_subset_of_nonneg
      (Finset.range_subset.2 (by omega)) (fun i _ _ => sq_nonneg _)
  have hb : ∑ i ∈ Finset.range n, b.getD i 0 ^ 2
      ≤ ∑ i ∈ Finset.range b.length, b.getD i 0 ^ 2 :=
    Finset.sum_le_sum_of_subset_of_nonneg
      (Finset.range_subset.2 (by omega)) (fun i _ _ => sq_nonneg _)
  exact mul_le_mul (Real.sqrt_le_sqrt ha) (Real.sqrt_le_sqrt hb)
    (Real.sqrt_nonneg _) (Real.sqrt_nonneg _)

theorem dotList_map_div (da db : ℝ) : ∀ (a b : List ℝ),
    dotList (a.map fun x => x / da) (b.map fun x => x / db)
      = dotList a b / (da * db) := by
  intro a
  induction a with
  | nil => intro b; simp [dotList]
  | cons x rest ih =>
    intro b
    cases b with
    | nil => simp [dotList]
    | cons y bs =>
      rw [show dotList ((x :: rest).map fun x => x / da)
            ((y :: bs).map fun x => x / db)
          = x / da * (y / db) + dotList (rest.map fun x => x / da)
            (bs.map fun x => x / db) by simp [dotList]]
      rw [ih bs, div_mul_div_comm,
        show dotList (x :: rest) (y :: bs) = x * y + dotList rest bs by
          simp [dotList], add_div]

theorem cosineSimEntry_le_one (A B : List (List ℝ)) (i j : Nat) :
    cosineSimEntry A B i j ≤ 1 := by
  set a := A.getD i [] with ha
  set b := B.getD j [] with hb
  by_cases hza : normL2 a = 0
  · rw [cosineSimEntry_zero_of_norm_zero A B i j (Or.inl hza)]; norm_num
  by_cases hzb : normL2 b = 0
  · rw [cosineSimEntry_zero_of_norm_zero A B i j (Or.inr hzb)]; norm_num
  have hpa : 0 < normL2 a := lt_of_le_of_ne (Real.sqrt_nonneg _) (Ne.symm hza)
  have hpb : 0 < normL2 b := lt_of_le_of_ne (Real.sqrt_nonneg _) (Ne.symm hzb)
  unfold cosineSimEntry sklearnNormalizeRow
  rw [← ha, ← hb, if_neg hza, if_neg hzb, dotList_map_div]
  rw [div_le_one (by positivity)]
  simpa using dotList_le_norm_mul_norm a b

theorem eucSimEntry_pos_le_one (A B : List (List ℝ)) (i j : Nat) :
    0 < eucSimEntry A B i j ∧ eucSimEntry A B i j ≤ 1 := by
  unfold eucSimEntry eucDistEntry
  have hd : 0 ≤ Real.sqrt (List.zipWith
      (fun x y => (x - y) ^ 2) (A.getD i []) (B.getD j [])).sum := Real.sqrt_nonneg _
  constructor
  · positivity
  · rw [div_le_one (by linarith)]
    linarith

theorem fusedEntry_le_one (A B : List (List ℝ)) (w : ℝ) (i j : Nat)
    (hw0 : 0 ≤ w) (hw1 : w ≤ 1) : fusedEntry A B w i j ≤ 1 := by
  unfold fusedEntry
  have hc := cosineSimEntry_le_one A B i j
  have he := (eucSimEntry_pos_le_one A B i j).2
  nlinarith

/-! ### Similarity engine: pair emission and sorting -/

theorem emittedPairs_elim (A B : List (List ℝ)) (infoA infoB : List QInfo)
    (w t : ℝ) (ts : Bool) (p : SimPair)
    (hp : p ∈ emittedPairs A B infoA infoB w t ts) :
    ∃ i j, i < infoA.length ∧ j < infoB.length ∧
      p = ⟨infoA.getD i emptyQInfo, infoB.getD j emptyQInfo, fusedEntry A B w i j⟩ ∧
      t ≤ fusedEntry A B w i j ∧
      (ts = true → (infoA.getD i emptyQInfo).qtype
        = (infoB.getD j emptyQInfo).qtype) := by
  unfold emittedPairs at hp
  rw [List.mem_flatMap] at hp
  obtain ⟨i, hi, hp⟩ := hp
  rw [List.mem_flatMap] at hp
  obtain ⟨j, hj, hp⟩ := hp
  rw [List.mem_range] at hi
  rw [List.mem_range] at hj
  by_cases hts : ts = true ∧
      (infoA.getD i emptyQInfo).qtype ≠ (infoB.getD j emptyQInfo).qtype
  · rw [if_pos hts] at hp; simp at hp
  · rw [if_neg hts] at hp
    by_cases hth : t ≤ fusedEntry A B w i j
    · rw [if_pos hth, List.mem_singleton] at hp
      exact ⟨i, j, hi, hj, hp, hth, fun h => by
        by_contra hne
        exact hts ⟨h, hne⟩⟩
    · rw [if_neg hth] at hp; simp at hp

theorem emittedPairs_intro (A B : List (List ℝ)) (infoA infoB : List QInfo)
    (w t : ℝ) (ts : Bool) (i j : Nat)
    (hi : i < infoA.length) (hj : j < infoB.length)
    (hty : ts = true → (infoA.getD i emptyQInfo).qtype
      = (infoB.getD j emptyQInfo).qtype)
    (hth : t ≤ fusedEntry A B w i j) :
    (⟨infoA.getD i emptyQInfo, infoB.getD j emptyQInfo,
      fusedEntry A B w i j⟩ : SimPair) ∈ emittedPairs A B infoA infoB w t ts := by
  unfold emittedPairs
  rw [List.mem_flatMap]
  refine ⟨i, List.mem_range.2 hi, ?_⟩
  rw [List.mem_flatMap]
  refine ⟨j, List.mem_range.2 hj, ?_⟩
  rw [if_neg fun hc => hc.2 (hty hc.1), if_pos hth]
  simp

theorem emittedPairs_nil_left (A B : List (List ℝ)) (infoB : List QInfo)
    (w t : ℝ) (ts : Bool) : emittedPairs A B [] infoB w t ts = [] := by
  simp [emittedPairs]

theorem emittedPairs_nil_right (A B : List (List ℝ)) (infoA : List QInfo)
    (w t : ℝ) (ts : Bool) : emittedPairs A B infoA [] w t ts = [] := by
  simp [emittedPairs]

theorem insertDesc_perm (p : SimPair) :
    ∀ l, List.Perm (insertDesc p l) (p :: l) := by
  intro l
  induction l with
  | nil => exact List.Perm.refl _
  | cons q qs ih =>
    by_cases h : p.similarity < q.similarity
    · rw [show insertDesc p (q :: qs) = q :: insertDesc p qs by simp [insertDesc, h]]
      exact (ih.cons q).trans (List.Perm.swap p q qs)
    · rw [show insertDesc p (q :: qs) = p :: q :: qs by simp [insertDesc, h]]

theorem sortPairs_perm (l : List SimPair) : List.Perm (sortPairs l) l := by
  induction l with
  | nil => exact List.Perm.refl _
  | cons x xs ih =>
    show List.Perm (insertDesc x (sortPairs xs)) (x :: xs)
    exact (insertDesc_perm x (sortPairs xs)).trans (ih.cons x)

theorem insertDesc_sorted (p : SimPair) :
    ∀ l, List.Sorted (fun a b : SimPair => b.similarity ≤ a.similarity) l →
      List.Sorted (fun a b : SimPair => b.similarity ≤ a.similarity)
        (insertDesc p l) := by
  intro l
  induction l with
  | nil => intro _; simp [insertDesc]
  | cons q qs ih =>
    intro hs
    obtain ⟨hq, hqs⟩ := List.sorted_cons.1 hs
    by_cases h : p.similarity < q.similarity
    · rw [show insertDesc p (q :: qs) = q :: insertDesc p qs by simp [insertDesc, h]]
      refine List.sorted_cons.2 ⟨?_, ih hqs⟩
      intro b hb
      rcases List.mem_cons.1 ((insertDesc_perm p qs).mem_iff.1 hb) with rfl | h2
      · exact le_of_lt h
      · exact hq b h2
    · rw [show insertDesc p (q :: qs) = p :: q :: qs by simp [insertDesc, h]]
      refine List.sorted_cons.2 ⟨?_, hs⟩
      intro b hb
      rcases List.mem_cons.1 hb with rfl | h2
      · exact not_lt.1 h
      · exact le_trans (hq b h2) (not_lt.1 h)

theorem sortPairs_sorted (l : List SimPair) :
    List.Sorted (fun a b : SimPair => b.similarity ≤ a.similarity) (sortPairs l) := by
  induction l with
  | nil => simp [sortPairs]
  | cons x xs ih => exact insertDesc_sorted x (sortPairs xs) ih

theorem insertDesc_split (p : SimPair) : ∀ l,
    insertDesc p l
      = l.takeWhile (fun q => decide (p.similarity < q.similarity))
        ++ p :: l.dropWhile (fun q => decide (p.similarity < q.similarity)) := by
  intro l
  induction l with
  | nil => simp [insertDesc]
  | cons q qs ih =>
    by_cases h : p.similarity < q.similarity
    · rw [show insertDesc p (q :: qs) = q :: insertDesc p qs by simp [insertDesc, h],
        ih, List.takeWhile_cons_of_pos (by simpa using h),
        List.dropWhile_cons_of_pos (by simpa using h)]
      rfl
    · rw [show insertDesc p (q :: qs) = p :: q :: qs by simp [insertDesc, h],
        List.takeWhile_cons_of_neg (by simpa using h),
        List.dropWhile_cons_of_neg (by simpa using h)]
      rfl

theorem filter_insertDesc (p : SimPair) (l : List SimPair) (v : ℝ) :
    (insertDesc p l).filter (fun q => decide (q.similarity = v))
      = if p.similarity = v
        then p :: l.filter (fun q => decide (q.similarity = v))
        else l.filter (fun q => decide (q.similarity = v)) := by
  rw [insertDesc_split, List.filter_append, List.filter_cons]
  by_cases hv : p.similarity = v
  · rw [if_pos (by simpa using hv), if_pos hv]
    have htW : (l.takeWhile fun q => decide (p.similarity < q.similarity)).filter
        (fun q => decide (q.similarity = v)) = [] := by
      rw [List.filter_eq_nil_iff]
      intro a ha
      have hlt := List.mem_takeWhile_imp ha
      simp only [decide_eq_true_eq] at hlt ⊢
      intro he
      rw [he, ← hv] at hlt
      exact lt_irrefl _ hlt
    have hl : l.filter (fun q => decide (q.similarity = v))
        = (l.dropWhile (fun q => decide (p.similarity < q.similarity))).filter
            (fun q => decide (q.similarity = v)) := by
      conv_lhs => rw [← List.takeWhile_append_dropWhile
        (fun q => decide (p.similarity < q.similarity)) l]
      rw [List.filter_append, htW, List.nil_append]
    rw [htW, hl, List.nil_append]
  · rw [if_neg (by simpa using hv), if_neg hv, ← List.filter_append,
      List.takeWhile_append_dropWhile]

theorem sortPairs_filter (v : ℝ) : ∀ l : List SimPair,
    (sortPairs l).filter (fun q => decide (q.similarity = v))
      = l.filter (fun q => decide (q.similarity = v)) := by
  intro l
  induction l with
  | nil => rfl
  | cons x xs ih =>
    show (insertDesc x (sortPairs xs)).filter _ = _
    rw [filter_insertDesc, List.filter_cons]
    by_cases hv : x.similarity = v
    · rw [if_pos hv, if_pos (by simpa using hv), ih]
    · rw [if_neg hv, if_neg (by simpa using hv), ih]

theorem calculateSimilarity_pairs (fA fB : List Char) (pa pb : List VQuestion)
    (t : ℝ) (ts : Bool) (w : ℝ) (dd : Bool) :
    (calculateSimilarity fA fB pa pb t ts w dd).similar_pairs
      = if ((usableQuestions pa).map Prod.fst).isEmpty
          || ((usableQuestions pb).map Prod.fst).isEmpty
        then []
        else sortPairs (emittedPairs
          ((usableQuestions pa).map Prod.fst) ((usableQuestions pb).map Prod.fst)
          ((usableQuestions pa).map Prod.snd) ((usableQuestions pb).map Prod.snd)
          w t ts) := by
  unfold calculateSimilarity
  by_cases h : ((usableQuestions pa).map Prod.fst).isEmpty
      || ((usableQuestions pb).map Prod.fst).isEmpty
  · simp only [h, if_pos]
  · simp only [h]
    rw [if_neg (by simp [h]), if_neg (by simp [h])]

/-- C1: whenever either input row has zero L2 norm, the cosine entry of
`cosine_similarity` is 0 — sklearn's normalization replaces zero norms by
1, so the zero row stays zero and no division by zero occurs — and the
scalar `fused_similarity`'s cosine component vanishes the same way,
leaving only the weighted Euclidean term. -/
theorem cosineSim_zero_norm_guard (A B : List (List ℝ)) (i j : Nat)
    (h : normL2 (A.getD i []) = 0 ∨ normL2 (B.getD j []) = 0) :
    cosineSimEntry A B i j = 0 ∧
    ∀ w : ℝ, fusedSimilarity (A.getD i []) (B.getD j []) w
      = (1 - w) * (1 / (1 + euclideanDistance (A.getD i []) (B.getD j []))) := by
  have hc := cosineSimEntry_zero_of_norm_zero A B i j h
  refine ⟨hc, fun w => ?_⟩
  have hs : cosineSimEntry [A.getD i []] [B.getD j []] 0 0
      = cosineSimEntry A B i j := rfl
  simp only [fusedSimilarity, hs, hc]
  ring

/-- C1 witness: the zero vector `[0]` against `[1]`. -/
theorem cosineSim_zero_norm_guard_witness :
    (normL2 (([[(0 : ℝ)]] : List (List ℝ)).getD 0 []) = 0 ∨
      normL2 (([[(1 : ℝ)]] : List (List ℝ)).getD 0 []) = 0) ∧
    cosineSimEntry [[(0 : ℝ)]] [[(1 : ℝ)]] 0 0 = 0 :=
  ⟨Or.inl (by simp [normL2, sqSum]),
   (cosineSim_zero_norm_guard [[(0 : ℝ)]] [[(1 : ℝ)]] 0 0
     (Or.inl (by simp [normL2, sqSum]))).1⟩

/-- C2: with the cosine weight and threshold inside the `[0,1]` domain the
configuration declares, every emitted pair's fused score lies in `[0,1]`:
the lower bound because emission requires `score ≥ threshold ≥ 0`, the
upper bound because the cosine entry is at most 1 (Cauchy-Schwarz) and
`1/(1+dist)` is at most 1. -/
theorem calculateSimilarity_score_in_unit (fA fB : List Char)
    (pa pb : List VQuestion) (t : ℝ) (ts : Bool) (w : ℝ) (dd : Bool)
    (hw0 : 0 ≤ w) (hw1 : w ≤ 1) (ht : 0 ≤ t) :
    ∀ p ∈ (calculateSimilarity fA fB pa pb t ts w dd).similar_pairs,
      0 ≤ p.similarity ∧ p.similarity ≤ 1 := by
  intro p hp
  rw [calculateSimilarity_pairs] at hp
  by_cases h : ((usableQuestions pa).map Prod.fst).isEmpty
      || ((usableQuestions pb).map Prod.fst).isEmpty
  · rw [if_pos h] at hp; simp at hp
  · rw [if_neg h] at hp
    obtain ⟨i, j, _, _, rfl, hth, _⟩ :=
      emittedPairs_elim _ _ _ _ w t ts p ((sortPairs_perm _).mem_iff.1 hp)
    exact ⟨le_trans ht hth, fusedEntry_le_one _ _ w i j hw0 hw1⟩

/-- C2 witness: a one-question-per-side run with weight 0.6 and threshold
0.7, the defaults. -/
theorem calculateSimilarity_score_in_unit_witness :
    (0 : ℝ) ≤ 0.6 ∧ (0.6 : ℝ) ≤ 1 ∧ (0 : ℝ) ≤ 0.7 ∧
    ∀ p ∈ (calculateSimilarity "a".toList "b".toList
        [⟨"1".toList, "t".toList, "x".toList, some [(1 : ℝ)]⟩]
        [⟨"2".toList, "t".toList, "y".toList, some [(1 : ℝ)]⟩]
        0.7 true 0.6 true).similar_pairs,
      0 ≤ p.similarity ∧ p.similarity ≤ 1 :=
  ⟨by norm_num, by norm_num, by norm_num,
   calculateSimilarity_score_in_unit _ _ _ _ _ _ _ _
     (by norm_num) (by norm_num) (by norm_num)⟩

/-- C3 counterexample: on an empty side the early return of
`calculate_similarity` (lines 67-78) builds the result dictionary without
the `"deduplicate"` key — modelled as `deduplicate = none` — even though
deduplication was requested, so the claim that the zero-pairs result
carries every schema field including the deduplicate flag is false. -/
theorem calculateSimilarity_empty_missing_dedup :
    (calculateSimilarity "a.json".toList "b.json".toList [] [] 0.7 true 0.6
      true).deduplicate = none ∧
    ¬ (calculateSimilarity "a.json".toList "b.json".toList [] [] 0.7 true 0.6
      true).deduplicate = some true := by
  constructor
  · rfl
  · intro hcontra
    rw [show (calculateSimilarity "a.json".toList "b.json".toList [] [] 0.7 true
      0.6 true).deduplicate = none from rfl] at hcontra
    exact Option.noConfusion hcontra

/-- C3 (amended): when either side has no usable vector after filtering,
`calculate_similarity` returns — it does not raise — a well-formed
zero-pairs result: `total_pairs = 0`, an empty pair list, the per-side
usable-question counts, and every other field of the comparison-result
schema (file names, method `"fused"`, threshold, type-sensitivity and
fusion weight echoes) — except the `deduplicate` flag, which this early
return omits (`deduplicate = none`). -/
theorem calculateSimilarity_empty_result (fA fB : List Char)
    (pa pb : List VQuestion) (t : ℝ) (ts : Bool) (w : ℝ) (dd : Bool)
    (h : (usableQuestions pa).isEmpty = true ∨ (usableQuestions pb).isEmpty = true) :
    (calculateSimilarity fA fB pa pb t ts w dd).total_pairs = 0 ∧
    (calculateSimilarity fA fB pa pb t ts w dd).similar_pairs = [] ∧
    (calculateSimilarity fA fB pa pb t ts w dd).total_questions_a
      = (usableQuestions pa).length ∧
    (calculateSimilarity fA fB pa pb t ts w dd).total_questions_b
      = (usableQuestions pb).length ∧
    (calculateSimilarity fA fB pa pb t ts w dd).paper_a = fA ∧
    (calculateSimilarity fA fB pa pb t ts w dd).paper_b = fB ∧
    (calculateSimilarity fA fB pa pb t ts w dd).method = "fused".toList ∧
    (calculateSimilarity fA fB pa pb t ts w dd).threshold = t ∧
    (calculateSimilarity fA fB pa pb t ts w dd).type_sensitive = ts ∧
    (calculateSimilarity fA fB pa pb t ts w dd).fusion_weight = w ∧
    (calculateSimilarity fA fB pa pb t ts w dd).deduplicate = none := by
  have hcond : (((usableQuestions pa).map Prod.fst).isEmpty
      || ((usableQuestions pb).map Prod.fst).isEmpty) = true := by
    rcases h with h | h
    · rw [List.isEmpty_iff.1 h]; simp
    · rw [List.isEmpty_iff.1 h]; simp
  unfold calculateSimilarity
  simp only [hcond]
  refine ⟨rfl, rfl, by simp, by simp, rfl, rfl, rfl, rfl, rfl, rfl, rfl⟩

/-- C3 witness: both sides empty. -/
theorem calculateSimilarity_empty_result_witness :
    ((usableQuestions ([] : List VQuestion)).isEmpty = true ∨
      (usableQuestions ([] : List VQuestion)).isEmpty = true) ∧
    (calculateSimilarity "a.json".toList "b.json".toList [] [] 0.7 true 0.6
      true).total_pairs = 0 :=
  ⟨Or.inl rfl,
   (calculateSimilarity_empty_result "a.json".toList "b.json".toList [] []
     0.7 true 0.6 true (Or.inl rfl)).1⟩

/-- C7: the threshold comparison of the emission loop is inclusive — a
candidate pair whose fused score is exactly the threshold is in the
output — and with `type_sensitive = True` no emitted pair has differing
question types. -/
theorem calculateSimilarity_threshold_type (fA fB : List Char)
    (pa pb : List VQuestion) (t : ℝ) (ts : Bool) (w : ℝ) (dd : Bool) :
    (∀ i j, i < (usableQuestions pa).length → j < (usableQuestions pb).length →
      (ts = true →
        (((usableQuestions pa).map Prod.snd).getD i emptyQInfo).qtype
          = (((usableQuestions pb).map Prod.snd).getD j emptyQInfo).qtype) →
      fusedEntry ((usableQuestions pa).map Prod.fst)
        ((usableQuestions pb).map Prod.fst) w i j = t →
      (⟨((usableQuestions pa).map Prod.snd).getD i emptyQInfo,
        ((usableQuestions pb).map Prod.snd).getD j emptyQInfo,
        fusedEntry ((usableQuestions pa).map Prod.fst)
          ((usableQuestions pb).map Prod.fst) w i j⟩ : SimPair)
        ∈ (calculateSimilarity fA fB pa pb t ts w dd).similar_pairs) ∧
    (ts = true → ∀ p ∈ (calculateSimilarity fA fB pa pb t ts w dd).similar_pairs,
      p.paper_a.qtype = p.paper_b.qtype) := by
  constructor
  · intro i j hi hj hty heq
    rw [calculateSimilarity_pairs]
    have hA : ¬((usableQuestions pa).map Prod.fst).isEmpty = true := by
      intro hc
      have := List.isEmpty_iff.1 hc
      rw [List.map_eq_nil_iff.1 this] at hi
      simp at hi
    have hB : ¬((usableQuestions pb).map Prod.fst).isEmpty = true := by
      intro hc
      have := List.isEmpty_iff.1 hc
      rw [List.map_eq_nil_iff.1 this] at hj
      simp at hj
    rw [if_neg (by simp [hA, hB])]
    refine (sortPairs_perm _).mem_iff.2 ?_
    exact emittedPairs_intro _ _ _ _ w t ts i j (by simpa using hi)
      (by simpa using hj) hty (le_of_eq heq.symm)
  · intro hts p hp
    rw [calculateSimilarity_pairs] at hp
    by_cases h : ((usableQuestions pa).map Prod.fst).isEmpty
        || ((usableQuestions pb).map Prod.fst).isEmpty
    · rw [if_pos h] at hp; simp at hp
    · rw [if_neg h] at hp
      obtain ⟨i, j, _, _, rfl, _, htyp⟩ :=
        emittedPairs_elim _ _ _ _ w t ts p ((sortPairs_perm _).mem_iff.1 hp)
      exact htyp hts

/-- C7 witness: one question per side with equal types; the threshold is
taken to be the pair's own fused score, so the exact-equality hypothesis
holds definitionally, and the theorem puts the pair in the output. -/
theorem calculateSimilarity_threshold_type_witness :
    (0 < (usableQuestions [⟨"1".toList, "t".toList, "x".toList,
        some [(1 : ℝ)]⟩]).length) ∧
    ((⟨((usableQuestions [⟨"1".toList, "t".toList, "x".toList,
          some [(1 : ℝ)]⟩]).map Prod.snd).getD 0 emptyQInfo,
      ((usableQuestions [⟨"2".toList, "t".toList, "y".toList,
          some [(1 : ℝ)]⟩]).map Prod.snd).getD 0 emptyQInfo,
      fusedEntry ((usableQuestions [⟨"1".toList, "t".toList, "x".toList,
          some [(1 : ℝ)]⟩]).map Prod.fst)
        ((usableQuestions [⟨"2".toList, "t".toList, "y".toList,
          some [(1 : ℝ)]⟩]).map Prod.fst) 0.6 0 0⟩ : SimPair)
      ∈ (calculateSimilarity "a".toList "b".toList
          [⟨"1".toList, "t".toList, "x".toList, some [(1 : ℝ)]⟩]
          [⟨"2".toList, "t".toList, "y".toList, some [(1 : ℝ)]⟩]
          (fusedEntry ((usableQuestions [⟨"1".toList, "t".toList, "x".toList,
              some [(1 : ℝ)]⟩]).map Prod.fst)
            ((usableQuestions [⟨"2".toList, "t".toList, "y".toList,
              some [(1 : ℝ)]⟩]).map Prod.fst) 0.6 0 0)
          true 0.6 true).similar_pairs) :=
  ⟨by simp [usableQuestions],
   (calculateSimilarity_threshold_type "a".toList "b".toList
      [⟨"1".toList, "t".toList, "x".toList, some [(1 : ℝ)]⟩]
      [⟨"2".toList, "t".toList, "y".toList, some [(1 : ℝ)]⟩]
      _ true 0.6 true).1 0 0 (by simp [usableQuestions])
      (by simp [usableQuestions]) (fun _ => rfl) rfl⟩

/-- C8: the emitted pair list of `calculate_similarity` is sorted by score
descending, is a permutation of the pairs found by the `(i, j)` emission
loop, and — stability of Python's sort — pairs of any given score appear
in exactly their `(i, then j)` enumeration order, so the output order is
deterministic. -/
theorem calculateSimilarity_sorted_stable (fA fB : List Char)
    (pa pb : List VQuestion) (t : ℝ) (ts : Bool) (w : ℝ) (dd : Bool) :
    List.Sorted (fun p q : SimPair => q.similarity ≤ p.similarity)
      (calculateSimilarity fA fB pa pb t ts w dd).similar_pairs ∧
    List.Perm (calculateSimilarity fA fB pa pb t ts w dd).similar_pairs
      (emittedPairs ((usableQuestions pa).map Prod.fst)
        ((usableQuestions pb).map Prod.fst) ((usableQuestions pa).map Prod.snd)
        ((usableQuestions pb).map Prod.snd) w t ts) ∧
    ∀ v : ℝ,
      ((calculateSimilarity fA fB pa pb t ts w dd).similar_pairs.filter
        fun p => decide (p.similarity = v))
      = ((emittedPairs ((usableQuestions pa).map Prod.fst)
          ((usableQuestions pb).map Prod.fst) ((usableQuestions pa).map Prod.snd)
          ((usableQuestions pb).map Prod.snd) w t ts).filter
        fun p => decide (p.similarity = v)) := by
  rw [calculateSimilarity_pairs]
  by_cases h : ((usableQuestions pa).map Prod.fst).isEmpty
      || ((usableQuestions pb).map Prod.fst).isEmpty
  · rw [if_pos h]
    have he : emittedPairs ((usableQuestions pa).map Prod.fst)
        ((usableQuestions pb).map Prod.fst) ((usableQuestions pa).map Prod.snd)
        ((usableQuestions pb).map Prod.snd) w t ts = [] := by
      rcases Bool.or_eq_true_iff.1 h with h1 | h1
      · rw [show (usableQuestions pa).map Prod.snd = [] by
          rw [List.map_eq_nil_iff.1 (List.isEmpty_iff.1 h1)]; rfl]
        exact emittedPairs_nil_left _ _ _ w t ts
      · rw [show (usableQuestions pb).map Prod.snd = [] by
          rw [List.map_eq_nil_iff.1 (List.isEmpty_iff.1 h1)]; rfl]
        exact emittedPairs_nil_right _ _ _ w t ts
    rw [he]
    exact ⟨by simp, List.Perm.refl _, fun v => rfl⟩
  · rw [if_neg h]
    exact ⟨sortPairs_sorted _, sortPairs_perm _, fun v => sortPairs_filter v _⟩

/-- C10: the scalar `fused_similarity` and the vectorized matrix path of
`calculate_similarity` agree: for all row indices, the fused matrix entry
— sklearn cosine matrix blended with the pairwise-expansion Euclidean
similarity — equals `fused_similarity` applied to the corresponding row
vectors with the same weight. -/
theorem fusedEntry_eq_fusedSimilarity (A B : List (List ℝ)) (w : ℝ) (i j : Nat) :
    fusedEntry A B w i j = fusedSimilarity (A.getD i []) (B.getD j []) w := by
  simp only [fusedEntry, fusedSimilarity, eucSimEntry, eucDistEntry,
    euclideanDistance, sqSum]
  have hc : cosineSimEntry [A.getD i []] [B.getD j []] 0 0
      = cosineSimEntry A B i j := rfl
  rw [hc, List.map_zipWith]

/-! ### Vector aggregation (claim C9) -/

theorem self_eq_map_range (v : List ℝ) :
    (List.range v.length).map (fun i => v.getD i 0) = v := by
  refine List.ext_getElem (by simp) ?_
  intro i h1 h2
  simp only [List.getElem_map, List.getElem_range]
  rw [List.getD_eq_getElem]

theorem zipWith_add_map_range (f g : Nat → ℝ) : ∀ (l : List Nat),
    List.zipWith (· + ·) (l.map f) (l.map g) = l.map fun i => f i + g i := by
  intro l
  induction l with
  | nil => rfl
  | cons x xs ih => simp [ih]

theorem vsum_eq_map_range (D : Nat) : ∀ (vs : List (List ℝ)), vs ≠ [] →
    (∀ v ∈ vs, v.length = D) →
    vsum vs = (List.range D).map fun i => (vs.map fun v => v.getD i 0).sum := by
  intro vs
  induction vs with
  | nil => intro h _; exact absurd rfl h
  | cons v rest ih =>
    intro _ hd
    have hv : v.length = D := hd v (by simp)
    cases rest with
    | nil =>
      rw [show vsum [v] = v from rfl]
      subst hv
      conv_lhs => rw [← self_eq_map_range v]
      refine List.map_congr_left fun i _ => ?_
      simp
    | cons v2 rest2 =>
      rw [show vsum (v :: v2 :: rest2) = List.zipWith (· + ·) v (vsum (v2 :: rest2))
          from rfl]
      rw [ih (by simp) fun w hw => hd w (by simp [hw])]
      conv_lhs => rw [← self_eq_map_range v, hv]
      rw [zipWith_add_map_range]
      refine List.map_congr_left fun i _ => ?_
      simp

theorem meanVec_perm (vs' vs : List (List ℝ)) (h : List.Perm vs' vs) (D : Nat)
    (hd : ∀ v ∈ vs, v.length = D) : meanVec vs' = meanVec vs := by
  unfold meanVec
  rcases eq_or_ne vs []
  case inl he => rw [he] at h ⊢; rw [h.eq_nil]
  case inr hne =>
    have hne' : vs' ≠ [] := fun hc => hne (by
      have := h.length_eq
      rw [hc] at this
      exact List.length_eq_zero.1 this.symm)
    have hd' : ∀ v ∈ vs', v.length = D := fun v hv => hd v (h.mem_iff.1 hv)
    rw [vsum_eq_map_range D vs hne hd, vsum_eq_map_range D vs' hne' hd',
      h.length_eq]
    refine congrArg _ (List.map_congr_left fun i _ => ?_)
    exact (h.map fun v => v.getD i 0).sum_eq

/-- C9: the vector that `vectorize_paper` aggregates for a question — the
componentwise arithmetic mean of the successful segment embeddings — is
invariant under any permutation of the segment order, for a per-text
deterministic embedding provider whose outputs share one dimension. -/
theorem aggregateSegments_perm (embed : List Char → Option (List ℝ))
    (segs' segs : List (List Char)) (hperm : List.Perm segs' segs) (D : Nat)
    (hdim : ∀ s v, embed s = some v → v.length = D) :
    aggregateSegments embed segs' = aggregateSegments embed segs := by
  unfold aggregateSegments
  have hp : List.Perm (segs'.filterMap embed) (segs.filterMap embed) :=
    hperm.filterMap embed
  have hlen := hp.length_eq
  by_cases h : (segs.filterMap embed).isEmpty
  · rw [if_pos h, if_pos (by
      rw [List.isEmpty_iff] at h ⊢
      rw [h] at hlen
      exact List.length_eq_zero.1 hlen)]
  · rw [if_neg h, if_neg (by
      intro hc
      rw [List.isEmpty_iff] at h hc
      rw [hc] at hlen
      exact h (List.length_eq_zero.1 hlen.symm))]
    refine congrArg _ (meanVec_perm _ _ hp D ?_)
    intro v hv
    obtain ⟨s, _, hs⟩ := List.mem_filterMap.1 hv
    exact hdim s v hs

/-- C9 witness: a two-segment swap under a constant two-dimensional
provider. -/
theorem aggregateSegments_perm_witness :
    List.Perm ["b".toList, "a".toList] ["a".toList, "b".toList] ∧
    (∀ s v, (fun _ : List Char => some [(1 : ℝ), 0]) s = some v → v.length = 2) ∧
    aggregateSegments (fun _ : List Char => some [(1 : ℝ), 0])
        ["b".toList, "a".toList]
      = aggregateSegments (fun _ : List Char => some [(1 : ℝ), 0])
        ["a".toList, "b".toList] :=
  ⟨List.Perm.swap "a".toList "b".toList [],
   fun s v h => by cases h; rfl,
   aggregateSegments_perm _ _ _ (List.Perm.swap "a".toList "b".toList []) 2
     (fun s v h => by cases h; rfl)⟩

end NlpExam
